import Mathlib

/-!
Verification of the minesweeper repository (Board, LP solver bookkeeping,
game loop) against its natural-language specification.

The Python source is shallowly embedded: 2-D arrays become functions
`Int → Int → _` indexed as `grid y x` (mirroring `self.grid[y][x]`),
mutation becomes explicit state passing, and the recursive flood fill
`Board.click` is embedded with an explicit fuel argument; fuel
irrelevance above the number of unpressed cells is proved, which is the
termination statement for the recursion.
-/

/-- The grid of a minesweeper board: dimensions plus per-cell state,
mirroring the attributes of the Python `Board` class.  `pressed y x`
mirrors `self.pressed[y][x]` and so on. -/
structure Board where
  windowWidth : Nat
  windowHeight : Nat
  mines : Nat
  pressed : Int → Int → Bool
  flagged : Int → Int → Bool
  is_mine : Int → Int → Bool
  neighboring_mine_count : Int → Int → Int
  _bombed : Bool
  remaining : Int
  flags_remaining : Int

/-- Whether the cell with column `x` and row `y` lies inside the grid,
the bound check `(0 <= new_x < self.windowWidth) and (0 <= new_y < self.windowHeight)`. -/
def Board.inB (b : Board) (x y : Int) : Prop :=
  0 ≤ x ∧ x < (b.windowWidth : Int) ∧ 0 ≤ y ∧ y < (b.windowHeight : Int)

instance (b : Board) (x y : Int) : Decidable (b.inB x y) := by
  unfold Board.inB; infer_instance

/-- The eight neighbor offsets, in the order of the tuple literal used by
`Board.create` and `Board.click`:
`[(x+1, y), (x+1, y+1), (x, y+1), (x-1, y+1), (x-1, y), (x-1, y-1), (x, y-1), (x+1, y-1)]`. -/
def offsets8 : List (Int × Int) :=
  [(1, 0), (1, 1), (0, 1), (-1, 1), (-1, 0), (-1, -1), (0, -1), (1, -1)]

/-- The eight neighbor coordinates of `(x, y)` in source order (not yet
filtered to the grid). -/
def neighborList (x y : Int) : List (Int × Int) :=
  offsets8.map (fun d => (x + d.1, y + d.2))

/-- All cells of a `W × H` grid in row-major order (`j` outer, `i` inner),
as produced by `[(i, j) for j in range(H) for i in range(W)]`. -/
def cellsRowMajor (W H : Nat) : List (Int × Int) :=
  (List.range H).flatMap
    (fun (j : Nat) => (List.range W).map (fun (i : Nat) => ((i : Int), (j : Int))))

/-- All cells in column-major order (`x` outer, `y` inner), as iterated by
the double loop `for x in range(W): for y in range(H):` in `Board.create`. -/
def cellsColMajor (W H : Nat) : List (Int × Int) :=
  (List.range W).flatMap
    (fun (x : Nat) => (List.range H).map (fun (y : Nat) => ((x : Int), (y : Int))))

/-- The effect of the two lines `self.pressed[y][x] = True` and
`self.remaining = self.remaining - 1` in `Board.click`. -/
def Board.press (b : Board) (x y : Int) : Board :=
  { b with
    pressed := fun y' x' => if y' = y ∧ x' = x then true else b.pressed y' x'
    remaining := b.remaining - 1 }

/-- A reveal triple `(x, y, clue)` as returned by `Board.click`. -/
abbrev Triple := Int × Int × Int

/-- Runs `step` on each coordinate of the list that passes the bound
check, threading the board state and concatenating the reveal lists: the
loop `for new_x, new_y in [...]: if in bounds: revealed.extend(self.click(new_x, new_y))`. -/
def runList (step : Board → Int → Int → Board × List Triple) :
    Board → List (Int × Int) → Board × List Triple
  | b, [] => (b, [])
  | b, p :: ps =>
    if b.inB p.1 p.2 then
      let r := step b p.1 p.2
      let rs := runList step r.1 ps
      (rs.1, r.2 ++ rs.2)
    else runList step b ps

/-- `Board.click` with an explicit fuel argument bounding the recursion
depth.  With fuel larger than the number of unpressed cells the fuel is
never exhausted (proved below), so this is the source's recursion. -/
def clickAux : Nat → Board → Int → Int → Board × List Triple
  | 0, b, _, _ => (b, [])
  | f + 1, b, x, y =>
    if b._bombed || b.pressed y x || b.flagged y x then (b, [])
    else if b.is_mine y x then ({ b with _bombed := true }, [(x, y, -1)])
    else
      let b1 := b.press x y
      if b1.neighboring_mine_count y x = 0 then
        let rs := runList (clickAux f) b1 (neighborList x y)
        (rs.1, (x, y, b1.neighboring_mine_count y x) :: rs.2)
      else (b1, [(x, y, b1.neighboring_mine_count y x)])

/-- Number of unpressed cells of the grid; the measure that bounds the
flood-fill recursion depth. -/
def unpressedCount (b : Board) : Nat :=
  (cellsRowMajor b.windowWidth b.windowHeight).countP (fun c => !b.pressed c.2 c.1)

/-- `Board.click`: the fuel `W*H + 1` always suffices. -/
def Board.click (b : Board) (x y : Int) : Board × List Triple :=
  clickAux (b.windowWidth * b.windowHeight + 1) b x y

/-- `Board.flag`: toggle the flag of an unrevealed cell unless the game
is over, adjusting `flags_remaining` by the sign of the new value. -/
def Board.flag (b : Board) (x y : Int) : Board :=
  if b._bombed || b.pressed y x then b
  else
    let newVal := !b.flagged y x
    { b with
      flagged := fun y' x' => if y' = y ∧ x' = x then newVal else b.flagged y' x'
      flags_remaining := b.flags_remaining + (if !newVal then 1 else -1) }

/-- `Board.has_won`: `return self.remaining == 0`. -/
def Board.has_won (b : Board) : Bool :=
  b.remaining == 0

/-- Setting `self.is_mine[y][x] = True` for each sampled mine cell. -/
def setMines (g : Int → Int → Bool) : List (Int × Int) → Int → Int → Bool
  | [], y, x => g y x
  | c :: cs, y, x =>
    setMines (fun y' x' => if y' = c.2 ∧ x' = c.1 then true else g y' x') cs y x

/-- The inner loop of the count computation in `Board.create`: for one
mined cell `(x, y)`, increment the count of each in-bounds neighbor. -/
def bumpNeighbors (W H : Nat) (g : Int → Int → Int) (x y : Int) : Int → Int → Int :=
  (neighborList x y).foldl
    (fun g' p =>
      if 0 ≤ p.1 ∧ p.1 < (W : Int) ∧ 0 ≤ p.2 ∧ p.2 < (H : Int) then
        fun y' x' => if y' = p.2 ∧ x' = p.1 then g' p.2 p.1 + 1 else g' y' x'
      else g')
    g

/-- The double loop of `Board.create` computing `neighboring_mine_count`
from `is_mine` (`x` outer, `y` inner). -/
def computeCounts (W H : Nat) (mine : Int → Int → Bool) : Int → Int → Int :=
  (cellsColMajor W H).foldl
    (fun g c => if mine c.2 c.1 then bumpNeighbors W H g c.1 c.2 else g)
    (fun _ _ => 0)

/-- `Board.create`, parameterized by the outcome `mineCells` of
`sample(candidates, self.mines)` (the only random step): reset all
per-cell state, mark the sampled cells mined, and precompute the
neighboring mine counts. -/
def Board.create (b : Board) (mineCells : List (Int × Int)) : Board :=
  let mine := setMines (fun _ _ => false) mineCells
  { b with
    pressed := fun _ _ => false
    flagged := fun _ _ => false
    is_mine := mine
    neighboring_mine_count := computeCounts b.windowWidth b.windowHeight mine
    remaining := (b.windowWidth : Int) * (b.windowHeight : Int) - (b.mines : Int)
    flags_remaining := (b.mines : Int)
    _bombed := false }

/-- A linear constraint of the solver's LP, as a structured record:
the two initial bounds `self.x >= 0` and `self.x <= 1`, a single-cell
fixing `self.x[j, i] == v`, and a neighbor-sum `cp.sum(neighbors) == total`. -/
inductive Constr where
  | lower
  | upper
  | fix (i j v : Int)
  | sumEq (cells : List (Int × Int)) (total : Int)
  deriving DecidableEq

/-- Modelled from the spec: the tolerance `EPSILON` imported by
`solver.py` through `from constants import *` (the `constants` module is
not under `src/`); the spec fixes it as the small tolerance 1e-2, which
also matches `EPSILON = 1e-2` in `minesweeper.py`. -/
def EPSILON : ℚ := 1 / 100

/-- The solver state: `clicked` and `flagged` are Python sets (modelled
as duplicate-free lists), `known` the clue map initialized to -1, and
`constraints` the growing constraint list starting from the two bounds. -/
structure MinesweeperLPSolver where
  clicked : List (Int × Int)
  flagged : List (Int × Int)
  known : Int → Int → Int
  constraints : List Constr
  last_solution : Int → Int → ℚ

/-- `MinesweeperLPSolver.__init__`. -/
def mkSolver : MinesweeperLPSolver :=
  { clicked := []
    flagged := []
    known := fun _ _ => -1
    constraints := [Constr.lower, Constr.upper]
    last_solution := fun _ _ => 0 }

/-- The in-bounds neighbors collected by `add_constraint`, iterating
`dist_i in (-1, 0, 1)` outer and `dist_j in (-1, 0, 1)` inner, skipping
`(0, 0)`. -/
def acNeighbors (b : Board) (i j : Int) : List (Int × Int) :=
  (([(-1, -1), (-1, 0), (-1, 1), (0, -1), (0, 1), (1, -1), (1, 0), (1, 1)] :
      List (Int × Int)).map (fun d => (i + d.1, j + d.2))).filter
    (fun p => decide (b.inB p.1 p.2))

/-- `MinesweeperLPSolver.add_constraint(i, j, mine_count)`: record the
clue, add the cell to `clicked`, and append the fixing constraint
`x[j, i] == 0` followed by the neighbor-sum constraint. -/
def MinesweeperLPSolver.add_constraint (s : MinesweeperLPSolver) (b : Board)
    (i j mine_count : Int) : MinesweeperLPSolver :=
  { s with
    known := fun j' i' => if j' = j ∧ i' = i then mine_count else s.known j' i'
    clicked := if (i, j) ∈ s.clicked then s.clicked else (i, j) :: s.clicked
    constraints :=
      s.constraints ++ [Constr.fix i j 0, Constr.sumEq (acNeighbors b i j) mine_count] }

/-- The list comprehension of `get_next` collecting all cells that are
neither pressed nor flagged on the board, in row-major order. -/
def unidentified (b : Board) : List (Int × Int) :=
  (cellsRowMajor b.windowWidth b.windowHeight).filter
    (fun c => !b.pressed c.2 c.1 && !b.flagged c.2 c.1)

/-- Python's `min(xs, key=k)`: the first element attaining the minimal
key (`none` on the empty list, where Python raises). -/
def pyMin {α : Type} (key : α → ℚ) : List α → Option α
  | [] => none
  | x :: xs => some (xs.foldl (fun m c => if key c < key m then c else m) x)

/-- `MinesweeperLPSolver.get_next`, parameterized by the solution vector
`sol` returned by the external LP solve (`sol j i` is `sol[j, i]`):
partition unidentified cells by tolerance, fall back to the first
minimal-value cell when both parts are empty, and flag-and-fix every new
`one_pos` cell.  Returns the updated solver plus `(zero_pos, one_pos)`. -/
def MinesweeperLPSolver.get_next (s : MinesweeperLPSolver) (b : Board)
    (sol : Int → Int → ℚ) :
    MinesweeperLPSolver × List (Int × Int) × List (Int × Int) :=
  let s0 := { s with last_solution := sol }
  let unid := unidentified b
  let zero0 := unid.filter (fun c => decide (sol c.2 c.1 ≤ EPSILON))
  let one0 := unid.filter
    (fun c => !decide (sol c.2 c.1 ≤ EPSILON) && decide (1 - EPSILON ≤ sol c.2 c.1))
  let zero1 :=
    if zero0.isEmpty && one0.isEmpty && !unid.isEmpty then
      match pyMin (fun c => sol c.2 c.1) unid with
      | some best => zero0 ++ [best]
      | none => zero0
    else zero0
  let s1 := one0.foldl
    (fun s' c =>
      if (c.1, c.2) ∈ s'.flagged then s'
      else
        { s' with
          flagged := (c.1, c.2) :: s'.flagged
          constraints := s'.constraints ++ [Constr.fix c.1 c.2 1] })
    s0
  (s1, zero1, one0)

/-- The game state driven by `Game.on_loop` (rendering and timing fields
are outside the embedded core). -/
structure Game where
  board : Board
  solver : MinesweeperLPSolver
  _running : Bool
  loop_count : Nat

/-- One iteration of `Game.on_loop`, parameterized by the LP solution of
this iteration: stop if the board is bombed, otherwise ask the solver
for `(click, flag)` lists, click each cell forwarding every returned
triple into `add_constraint`, then flag the flag list. -/
def Game.on_loop (g : Game) (sol : Int → Int → ℚ) : Game :=
  if g.board._bombed then { g with _running := false }
  else
    let r := g.solver.get_next g.board sol
    let bs := r.2.1.foldl
      (fun (st : Board × MinesweeperLPSolver) c =>
        let cr := st.1.click c.1 c.2
        (cr.1, cr.2.foldl (fun sv t => sv.add_constraint cr.1 t.1 t.2.1 t.2.2) st.2))
      (g.board, r.1)
    let b2 := r.2.2.foldl (fun bb c => bb.flag c.1 c.2) bs.1
    { g with board := b2, solver := bs.2, loop_count := g.loop_count + 1 }

/-- The boards and concatenated reveal triples produced by the sequence
of `Board.click` calls `on_loop` makes for a click list. -/
def loopClickResults (b : Board) : List (Int × Int) → Board × List Triple
  | [] => (b, [])
  | c :: cs =>
    let cr := b.click c.1 c.2
    let rest := loopClickResults cr.1 cs
    (rest.1, cr.2 ++ rest.2)

/-- A board operation: the reveal and flag mutators. -/
inductive Op where
  | click (x y : Int)
  | flag (x y : Int)

/-- Apply one operation to a board. -/
def applyOp (b : Board) : Op → Board
  | Op.click x y => (b.click x y).1
  | Op.flag x y => b.flag x y

/-- Apply a sequence of operations. -/
def applyOps (b : Board) (ops : List Op) : Board := ops.foldl applyOp b

/-- The operation's coordinates lie inside the grid of `b`. -/
def Op.inB (b : Board) : Op → Prop
  | Op.click x y => b.inB x y
  | Op.flag x y => b.inB x y

/-- Number of non-mined unpressed cells: the quantity `self.remaining`
tracks. -/
def safeUnpressedCount (b : Board) : Nat :=
  (cellsRowMajor b.windowWidth b.windowHeight).countP
    (fun c => !b.is_mine c.2 c.1 && !b.pressed c.2 c.1)

/-- The board-state invariant: no cell is pressed and flagged at once,
no mined cell is pressed, and `remaining` counts the non-mined unpressed
cells. -/
def Board.inv (b : Board) : Prop :=
  (∀ c ∈ cellsRowMajor b.windowWidth b.windowHeight,
      ¬(b.pressed c.2 c.1 = true ∧ b.flagged c.2 c.1 = true)) ∧
  (∀ c ∈ cellsRowMajor b.windowWidth b.windowHeight,
      b.is_mine c.2 c.1 = true → b.pressed c.2 c.1 = false) ∧
  b.remaining = (safeUnpressedCount b : Int)

/-- The counts grid agrees with the mine grid: every cell's
`neighboring_mine_count` is the number of mined in-bounds neighbors
(the state `Board.create` establishes). -/
def coherent (b : Board) : Prop :=
  ∀ c ∈ cellsRowMajor b.windowWidth b.windowHeight,
    b.neighboring_mine_count c.2 c.1 =
      (((neighborList c.1 c.2).filter (fun p => decide (b.inB p.1 p.2))).countP
          (fun p => b.is_mine p.2 p.1) : Int)

instance (b : Board) : Decidable (coherent b) := by
  unfold coherent
  infer_instance

/-- The coordinates of a reveal list. -/
def coords (r : List Triple) : List (Int × Int) := r.map (fun t => (t.1, t.2.1))

/-- Whether `c` is one of the eight neighbors of `a`. -/
def isAdj (a c : Int × Int) : Bool := decide (c ∈ neighborList a.1 a.2)

/-- Each triple of the list is adjacent to an earlier (or accumulated)
triple whose clue is zero: the reveal order of a flood fill. -/
def chainOk (acc : List Triple) : List Triple → Bool
  | [] => true
  | t :: ts =>
    acc.any (fun e => e.2.2 == 0 && isAdj (e.1, e.2.1) (t.1, t.2.1)) &&
      chainOk (acc ++ [t]) ts

/-- `b'` agrees with `b` on everything `click` never writes: the
dimensions, the flags, the mines, and the counts. -/
def SameStatic (b b' : Board) : Prop :=
  b'.windowWidth = b.windowWidth ∧ b'.windowHeight = b.windowHeight ∧
  b'.flagged = b.flagged ∧ b'.is_mine = b.is_mine ∧
  b'.neighboring_mine_count = b.neighboring_mine_count

/-- Every cell pressed in `b` is pressed in `b'`, and a detonated board
stays detonated. -/
def Mono (b b' : Board) : Prop :=
  (∀ i j, b.pressed j i = true → b'.pressed j i = true) ∧
  (b._bombed = true → b'._bombed = true)

/-- Structural description of one flood fill starting at `b` and ending
at `b'` with reveal list `r`: every revealed cell was in bounds,
unpressed and unflagged at the start; every triple is either the
detonation sentinel of a mined cell (and then the result is bombed) or
carries the cell's clue and the cell ends up pressed; cells become
pressed only by appearing in `r`; and no cell is revealed twice. -/
def ClickOut (b b' : Board) (r : List Triple) : Prop :=
  (∀ t ∈ r, b.inB t.1 t.2.1 ∧ b.pressed t.2.1 t.1 = false ∧ b.flagged t.2.1 t.1 = false) ∧
  (∀ t ∈ r, (t.2.2 = -1 ∧ b.is_mine t.2.1 t.1 = true ∧ b'._bombed = true) ∨
      (t.2.2 = b.neighboring_mine_count t.2.1 t.1 ∧ b.is_mine t.2.1 t.1 = false ∧
        b'.pressed t.2.1 t.1 = true)) ∧
  (∀ i j, b'.pressed j i = true → b.pressed j i = true ∨ ∃ c, (i, j, c) ∈ r) ∧
  (coords r).Nodup

/-- All in-bounds neighbors of the cell of `t` are pressed or flagged on
`b'`: the flood-fill boundary condition around a revealed zero-clue cell. -/
def NbrsDone (b' : Board) (t : Triple) : Prop :=
  ∀ p ∈ neighborList t.1 t.2.1, b'.inB p.1 p.2 →
    b'.pressed p.2 p.1 = true ∨ b'.flagged p.2 p.1 = true

instance (b : Board) (op : Op) : Decidable (Op.inB b op) :=
  match op with
  | Op.click x y => inferInstanceAs (Decidable (b.inB x y))
  | Op.flag x y => inferInstanceAs (Decidable (b.inB x y))

/-- A concrete 2-by-1 board with a single mine at `(0, 0)`, used to
instantiate the theorems on concrete inputs. -/
def cbB : Board :=
  { windowWidth := 2, windowHeight := 1, mines := 1
    pressed := fun _ _ => false, flagged := fun _ _ => false
    is_mine := fun y x => decide (y = 0 ∧ x = 0)
    neighboring_mine_count := fun y x => if y = 0 ∧ x = 1 then 1 else 0
    _bombed := false, remaining := 1, flags_remaining := 1 }

/-- A concrete mine-free 2-by-1 board. -/
def cbC : Board :=
  { windowWidth := 2, windowHeight := 1, mines := 0
    pressed := fun _ _ => false, flagged := fun _ _ => false
    is_mine := fun _ _ => false, neighboring_mine_count := fun _ _ => 0
    _bombed := false, remaining := 2, flags_remaining := 0 }

/-- A concrete mine-free 2-by-2 board. -/
def cbD : Board :=
  { windowWidth := 2, windowHeight := 2, mines := 0
    pressed := fun _ _ => false, flagged := fun _ _ => false
    is_mine := fun _ _ => false, neighboring_mine_count := fun _ _ => 0
    _bombed := false, remaining := 4, flags_remaining := 0 }

/-- The board `cbB` with the mined cell flagged. -/
def cbE : Board :=
  { cbB with flagged := fun y x => decide (y = 0 ∧ x = 0) }

/-- A game over `cbB` with a fresh solver. -/
def gameB : Game :=
  { board := cbB, solver := mkSolver, _running := true, loop_count := 0 }

/-- The all-zero LP solution. -/
def solZero : Int → Int → ℚ := fun _ _ => 0

/-- An LP solution whose values lie strictly between the tolerances. -/
def solMid : Int → Int → ℚ := fun _ i => if i = 1 then 1/3 else 1/2

theorem sameStatic_refl (b : Board) : SameStatic b b :=
  ⟨rfl, rfl, rfl, rfl, rfl⟩

theorem sameStatic_trans {a b c : Board} (h1 : SameStatic a b) (h2 : SameStatic b c) :
    SameStatic a c := by
  obtain ⟨w1, h1', f1, m1, n1⟩ := h1
  obtain ⟨w2, h2', f2, m2, n2⟩ := h2
  exact ⟨w2.trans w1, h2'.trans h1', f2.trans f1, m2.trans m1, n2.trans n1⟩

theorem mono_refl (b : Board) : Mono b b := ⟨fun _ _ h => h, fun h => h⟩

theorem mono_trans {a b c : Board} (h1 : Mono a b) (h2 : Mono b c) : Mono a c :=
  ⟨fun i j h => h2.1 i j (h1.1 i j h), fun h => h2.2 (h1.2 h)⟩

theorem runList_static {step : Board → Int → Int → Board × List Triple}
    (hstep : ∀ b x y, SameStatic b (step b x y).1) :
    ∀ ps b, SameStatic b (runList step b ps).1 := by
  intro ps
  induction ps with
  | nil => intro b; exact sameStatic_refl b
  | cons p ps ih =>
    intro b
    by_cases hb : b.inB p.1 p.2
    · simp only [runList, if_pos hb]
      exact sameStatic_trans (hstep b p.1 p.2) (ih _)
    · simp only [runList, if_neg hb]
      exact ih b

theorem clickAux_static : ∀ f b x y, SameStatic b (clickAux f b x y).1 := by
  intro f
  induction f with
  | zero => intro b x y; exact sameStatic_refl b
  | succ f ih =>
    intro b x y
    simp only [clickAux]
    by_cases h1 : b._bombed || b.pressed y x || b.flagged y x
    · simp only [if_pos h1]; exact sameStatic_refl b
    · simp only [if_neg h1]
      by_cases h2 : b.is_mine y x
      · simp only [if_pos h2]; exact ⟨rfl, rfl, rfl, rfl, rfl⟩
      · simp only [if_neg h2]
        by_cases h3 : (b.press x y).neighboring_mine_count y x = 0
        · simp only [if_pos h3]
          exact sameStatic_trans (⟨rfl, rfl, rfl, rfl, rfl⟩ : SameStatic b (b.press x y))
            (runList_static ih _ _)
        · simp only [if_neg h3]
          exact ⟨rfl, rfl, rfl, rfl, rfl⟩

theorem runList_mono {step : Board → Int → Int → Board × List Triple}
    (hstep : ∀ b x y, Mono b (step b x y).1) :
    ∀ ps b, Mono b (runList step b ps).1 := by
  intro ps
  induction ps with
  | nil => intro b; exact mono_refl b
  | cons p ps ih =>
    intro b
    by_cases hb : b.inB p.1 p.2
    · simp only [runList, if_pos hb]
      exact mono_trans (hstep b p.1 p.2) (ih _)
    · simp only [runList, if_neg hb]
      exact ih b

theorem press_mono (b : Board) (x y : Int) : Mono b (b.press x y) := by
  refine ⟨fun i j h => ?_, fun h => h⟩
  simp only [Board.press]
  split <;> simp [h]

theorem clickAux_mono : ∀ f b x y, Mono b (clickAux f b x y).1 := by
  intro f
  induction f with
  | zero => intro b x y; exact mono_refl b
  | succ f ih =>
    intro b x y
    simp only [clickAux]
    by_cases h1 : b._bombed || b.pressed y x || b.flagged y x
    · simp only [if_pos h1]; exact mono_refl b
    · simp only [if_neg h1]
      by_cases h2 : b.is_mine y x
      · simp only [if_pos h2]
        exact ⟨fun i j h => h, fun _ => rfl⟩
      · simp only [if_neg h2]
        by_cases h3 : (b.press x y).neighboring_mine_count y x = 0
        · simp only [if_pos h3]
          exact mono_trans (press_mono b x y) (runList_mono ih _ _)
        · simp only [if_neg h3]
          exact press_mono b x y

theorem mem_cellsRowMajor (W H : Nat) (c : Int × Int) :
    c ∈ cellsRowMajor W H ↔ 0 ≤ c.1 ∧ c.1 < (W : Int) ∧ 0 ≤ c.2 ∧ c.2 < (H : Int) := by
  constructor
  · intro h
    obtain ⟨j, hj, hc⟩ := List.mem_flatMap.mp h
    obtain ⟨i, hi, he⟩ := List.mem_map.mp hc
    rw [List.mem_range] at hj hi
    subst he
    refine ⟨Int.natCast_nonneg i, ?_, Int.natCast_nonneg j, ?_⟩
    · show (i : Int) < (W : Int)
      exact_mod_cast hi
    · show (j : Int) < (H : Int)
      exact_mod_cast hj
  · rintro ⟨h1, h2, h3, h4⟩
    apply List.mem_flatMap.mpr
    refine ⟨c.2.toNat, List.mem_range.mpr (by omega), ?_⟩
    apply List.mem_map.mpr
    refine ⟨c.1.toNat, List.mem_range.mpr (by omega), ?_⟩
    rw [Int.toNat_of_nonneg h1, Int.toNat_of_nonneg h3]

theorem nodup_cellsRowMajor (W H : Nat) : (cellsRowMajor W H).Nodup := by
  apply List.nodup_flatMap.2
  constructor
  · intro j _
    refine List.Nodup.map ?_ (List.nodup_range W)
    intro a b h
    have := congrArg Prod.fst h
    simpa using this
  · refine (List.pairwise_lt_range H).imp ?_
    intro j1 j2 hlt c hc1 hc2
    obtain ⟨i1, _, he1⟩ := List.mem_map.mp hc1
    obtain ⟨i2, _, he2⟩ := List.mem_map.mp hc2
    have : (j1 : Int) = (j2 : Int) := by
      have := (congrArg Prod.snd he1).trans (congrArg Prod.snd he2).symm
      simpa using this
    omega

theorem length_cellsRowMajor (W H : Nat) : (cellsRowMajor W H).length = H * W := by
  unfold cellsRowMajor
  rw [List.length_flatMap]
  simp only [Function.comp_def, List.length_map, List.length_range]
  simp [List.map_const', List.sum_replicate, smul_eq_mul]

theorem unpressedCount_le (b : Board) :
    unpressedCount b ≤ b.windowHeight * b.windowWidth := by
  calc unpressedCount b
      ≤ (cellsRowMajor b.windowWidth b.windowHeight).length := List.countP_le_length _
    _ = b.windowHeight * b.windowWidth := length_cellsRowMajor _ _

theorem unpressed_le_of_mono {b b' : Board} (hm : Mono b b') (hs : SameStatic b b') :
    unpressedCount b' ≤ unpressedCount b := by
  unfold unpressedCount
  rw [hs.1, hs.2.1]
  apply List.countP_mono_left
  intro c _ hc
  simp only [Bool.not_eq_true', decide_eq_true_eq] at *
  cases hp : b.pressed c.2 c.1 with
  | false => simp
  | true => simp [hm.1 c.1 c.2 hp] at hc

theorem countP_update_at {α : Type} (l : List α) (hnd : l.Nodup) (a : α) (ha : a ∈ l)
    (p q : α → Bool) (hpa : p a = true) (hqa : q a = false)
    (hrest : ∀ x ∈ l, x ≠ a → p x = q x) :
    l.countP q + 1 = l.countP p := by
  induction l with
  | nil => cases ha
  | cons hd t ih =>
    rw [List.nodup_cons] at hnd
    rcases List.mem_cons.mp ha with heq | hat
    · subst heq
      have heq2 : t.countP p = t.countP q := by
        apply List.countP_congr
        intro x hx
        rw [hrest x (List.mem_cons_of_mem _ hx) (fun h => hnd.1 (h ▸ hx))]
      rw [List.countP_cons, List.countP_cons, hpa, hqa, heq2]
      simp
    · have hne : hd ≠ a := fun h => hnd.1 (h ▸ hat)
      have := ih hnd.2 hat (fun x hx => hrest x (List.mem_cons_of_mem _ hx))
      rw [List.countP_cons, List.countP_cons, hrest hd (List.mem_cons_self _ _) hne]
      omega

theorem unpressedCount_press (b : Board) (x y : Int) (hin : b.inB x y)
    (hp : b.pressed y x = false) :
    unpressedCount (b.press x y) + 1 = unpressedCount b := by
  unfold unpressedCount Board.press
  apply countP_update_at _ (nodup_cellsRowMajor _ _) (x, y)
  · rw [mem_cellsRowMajor]
    exact hin
  · simp [hp]
  · simp
  · intro c _ hc
    have : ¬(c.2 = y ∧ c.1 = x) := by
      rintro ⟨h1, h2⟩
      exact hc (Prod.ext h2 h1)
    simp [this]

theorem runList_congr {step1 step2 : Board → Int → Int → Board × List Triple}
    (hmono : ∀ b x y, Mono b (step1 b x y).1)
    (hstatic : ∀ b x y, SameStatic b (step1 b x y).1)
    (n : Nat)
    (hstep : ∀ b x y, b.inB x y → unpressedCount b ≤ n → step1 b x y = step2 b x y) :
    ∀ ps b, unpressedCount b ≤ n → runList step1 b ps = runList step2 b ps := by
  intro ps
  induction ps with
  | nil => intro b _; rfl
  | cons p ps ih =>
    intro b hb
    by_cases hin : b.inB p.1 p.2
    · have he := hstep b p.1 p.2 hin hb
      simp only [runList, if_pos hin, ← he]
      have hle : unpressedCount (step1 b p.1 p.2).1 ≤ n :=
        le_trans (unpressed_le_of_mono (hmono b p.1 p.2) (hstatic b p.1 p.2)) hb
      rw [ih _ hle]
    · simp only [runList, if_neg hin]
      exact ih b hb

theorem clickAux_fuel_congr :
    ∀ f g b x y, b.inB x y → unpressedCount b < f → unpressedCount b < g →
      clickAux f b x y = clickAux g b x y := by
  intro f
  induction f using Nat.strong_induction_on with
  | _ f IH =>
    intro g b x y hin hf hg
    match f, g with
    | f' + 1, g' + 1 =>
      simp only [clickAux]
      by_cases h1 : b._bombed || b.pressed y x || b.flagged y x
      · simp only [if_pos h1]
      · simp only [if_neg h1]
        by_cases h2 : b.is_mine y x
        · simp only [if_pos h2]
        · simp only [if_neg h2]
          have hp : b.pressed y x = false := by
            simp only [Bool.or_eq_true] at h1; push_neg at h1
            simpa using h1.1.2
          have hcnt := unpressedCount_press b x y hin hp
          have hrun : runList (clickAux f') (b.press x y) (neighborList x y) =
              runList (clickAux g') (b.press x y) (neighborList x y) := by
            apply runList_congr (clickAux_mono f') (clickAux_static f')
              (unpressedCount (b.press x y))
            · intro b2 x2 y2 hin2 hle2
              apply IH f' (by omega) g' b2 x2 y2 hin2 <;> omega
            · exact le_refl _
          rw [hrun]
    | 0, _ => omega
    | _ + 1, 0 => omega

theorem click_eq_clickAux (b : Board) (x y : Int) (f : Nat)
    (hin : b.inB x y) (hf : unpressedCount b < f) :
    clickAux f b x y = b.click x y := by
  apply clickAux_fuel_congr f _ b x y hin hf
  have := unpressedCount_le b
  have : b.windowHeight * b.windowWidth ≤ b.windowWidth * b.windowHeight :=
    Nat.le_of_eq (Nat.mul_comm _ _)
  omega

theorem clickAux_bombed_stop : ∀ f b x y, b._bombed = true → clickAux f b x y = (b, []) := by
  intro f b x y h
  cases f with
  | zero => rfl
  | succ f => simp [clickAux, h]

theorem runList_bombed_stop {step : Board → Int → Int → Board × List Triple}
    (hstep : ∀ b x y, b._bombed = true → step b x y = (b, [])) :
    ∀ ps b, b._bombed = true → runList step b ps = (b, []) := by
  intro ps
  induction ps with
  | nil => intro b _; rfl
  | cons p ps ih =>
    intro b h
    by_cases hb : b.inB p.1 p.2
    · simp [runList, if_pos hb, hstep b p.1 p.2 h, ih b h]
    · simp only [runList, if_neg hb, ih b h]

theorem inB_congr {b b' : Board} (hs : SameStatic b b') (x y : Int) :
    b'.inB x y ↔ b.inB x y := by
  unfold Board.inB
  rw [hs.1, hs.2.1]

theorem clickOut_nil (b : Board) : ClickOut b b [] :=
  ⟨fun _ ht => absurd ht (List.not_mem_nil _), fun _ ht => absurd ht (List.not_mem_nil _),
    fun _ _ h => Or.inl h, List.nodup_nil⟩

theorem clickOut_comp {b b1 bN : Board} {r1 r2 : List Triple}
    (h1 : ClickOut b b1 r1) (h2 : ClickOut b1 bN r2)
    (hs1 : SameStatic b b1) (hm1 : Mono b b1) (hmN : Mono b1 bN)
    (hsent : b1._bombed = true → r2 = []) :
    ClickOut b bN (r1 ++ r2) := by
  obtain ⟨p1, q1, w1, n1⟩ := h1
  obtain ⟨p2, q2, w2, n2⟩ := h2
  refine ⟨?_, ?_, ?_, ?_⟩
  · intro t ht
    rcases List.mem_append.mp ht with h | h
    · exact p1 t h
    · obtain ⟨hb, hp, hf⟩ := p2 t h
      refine ⟨(inB_congr hs1 _ _).mp hb, ?_, ?_⟩
      · cases hbp : b.pressed t.2.1 t.1 with
        | false => rfl
        | true => rw [hm1.1 t.1 t.2.1 hbp] at hp; cases hp
      · rw [← congrFun (congrFun hs1.2.2.1 t.2.1) t.1]
        exact hf
  · intro t ht
    rcases List.mem_append.mp ht with h | h
    · rcases q1 t h with ⟨ha, hb, hc⟩ | ⟨ha, hb, hc⟩
      · exact Or.inl ⟨ha, hb, hmN.2 hc⟩
      · exact Or.inr ⟨ha, hb, hmN.1 _ _ hc⟩
    · rcases q2 t h with ⟨ha, hb, hc⟩ | ⟨ha, hb, hc⟩
      · rw [congrFun (congrFun hs1.2.2.2.1 t.2.1) t.1] at hb
        exact Or.inl ⟨ha, hb, hc⟩
      · rw [congrFun (congrFun hs1.2.2.2.1 t.2.1) t.1] at hb
        rw [congrFun (congrFun hs1.2.2.2.2 t.2.1) t.1] at ha
        exact Or.inr ⟨ha, hb, hc⟩
  · intro i j hp
    rcases w2 i j hp with h | ⟨c, hc⟩
    · rcases w1 i j h with h' | ⟨c, hc⟩
      · exact Or.inl h'
      · exact Or.inr ⟨c, List.mem_append_left _ hc⟩
    · exact Or.inr ⟨c, List.mem_append_right _ hc⟩
  · unfold coords
    rw [List.map_append]
    apply List.Nodup.append n1 n2
    intro a ha1 ha2
    obtain ⟨t1, ht1, he1⟩ := List.mem_map.mp ha1
    obtain ⟨t2, ht2, he2⟩ := List.mem_map.mp ha2
    rcases q1 t1 ht1 with ⟨_, _, hbmb⟩ | ⟨_, _, hpr⟩
    · rw [hsent hbmb] at ht2
      cases ht2
    · obtain ⟨_, hp2, _⟩ := p2 t2 ht2
      rw [← he2] at he1
      have he : (t1.1, t1.2.1) = (t2.1, t2.2.1) := he1
      obtain ⟨hx, hy⟩ := Prod.mk.inj he
      rw [hx, hy] at hpr
      rw [hpr] at hp2
      cases hp2

theorem runList_clickOut {step : Board → Int → Int → Board × List Triple}
    (hstep : ∀ b x y, b.inB x y → ClickOut b (step b x y).1 (step b x y).2)
    (hmono : ∀ b x y, Mono b (step b x y).1)
    (hstatic : ∀ b x y, SameStatic b (step b x y).1)
    (habort : ∀ b x y, b._bombed = true → step b x y = (b, [])) :
    ∀ ps b, ClickOut b (runList step b ps).1 (runList step b ps).2 := by
  intro ps
  induction ps with
  | nil => intro b; exact clickOut_nil b
  | cons p ps ih =>
    intro b
    by_cases hin : b.inB p.1 p.2
    · simp only [runList, if_pos hin]
      refine clickOut_comp (hstep b p.1 p.2 hin) (ih _)
        (hstatic b p.1 p.2) (hmono b p.1 p.2) (runList_mono hmono ps _) ?_
      intro hb
      rw [runList_bombed_stop habort ps _ hb]
    · simp only [runList, if_neg hin]
      exact ih b

theorem press_static (b : Board) (x y : Int) : SameStatic b (b.press x y) :=
  ⟨rfl, rfl, rfl, rfl, rfl⟩

theorem press_pressed_self (b : Board) (x y : Int) : (b.press x y).pressed y x = true := by
  simp [Board.press]

theorem press_pressed_false {b : Board} {x y i j : Int}
    (h : (b.press x y).pressed j i = false) : b.pressed j i = false := by
  have hr : (b.press x y).pressed j i = if j = y ∧ i = x then true else b.pressed j i := rfl
  rw [hr] at h
  split at h
  · cases h
  · exact h

theorem clickAux_clickOut :
    ∀ f b x y, b.inB x y → ClickOut b (clickAux f b x y).1 (clickAux f b x y).2 := by
  intro f
  induction f with
  | zero => intro b x y _; exact clickOut_nil b
  | succ f ih =>
    intro b x y hin
    simp only [clickAux]
    by_cases h1 : b._bombed || b.pressed y x || b.flagged y x
    · simp only [if_pos h1]; exact clickOut_nil b
    · simp only [if_neg h1]
      simp only [Bool.or_eq_true, not_or, Bool.not_eq_true] at h1
      have hbmb := h1.1.1
      have hprs := h1.1.2
      have hflg := h1.2
      by_cases h2 : b.is_mine y x
      · simp only [if_pos h2]
        refine ⟨?_, ?_, ?_, ?_⟩
        · intro t ht
          rw [List.mem_singleton] at ht
          subst ht
          exact ⟨hin, hprs, hflg⟩
        · intro t ht
          rw [List.mem_singleton] at ht
          subst ht
          exact Or.inl ⟨rfl, h2, rfl⟩
        · intro i j h
          exact Or.inl h
        · exact List.nodup_singleton _
      · simp only [if_neg h2]
        by_cases h3 : (b.press x y).neighboring_mine_count y x = 0
        · simp only [if_pos h3]
          have hrl := runList_clickOut ih (clickAux_mono f) (clickAux_static f)
            (clickAux_bombed_stop f) (neighborList x y) (b.press x y)
          have hmN := runList_mono (clickAux_mono f) (neighborList x y) (b.press x y)
          obtain ⟨p2, q2, w2, n2⟩ := hrl
          refine ⟨?_, ?_, ?_, ?_⟩
          · intro t ht
            rcases List.mem_cons.mp ht with rfl | ht'
            · exact ⟨hin, hprs, hflg⟩
            · obtain ⟨hb', hp', hf'⟩ := p2 t ht'
              exact ⟨hb', press_pressed_false hp', hf'⟩
          · intro t ht
            rcases List.mem_cons.mp ht with rfl | ht'
            · exact Or.inr ⟨rfl, by simpa using h2, hmN.1 x y (press_pressed_self b x y)⟩
            · rcases q2 t ht' with ⟨ha, hb', hc⟩ | ⟨ha, hb', hc⟩
              · exact Or.inl ⟨ha, hb', hc⟩
              · exact Or.inr ⟨ha, hb', hc⟩
          · intro i j hp
            rcases w2 i j hp with h' | ⟨c, hc⟩
            · by_cases hc2 : j = y ∧ i = x
              · refine Or.inr ⟨(b.press x y).neighboring_mine_count y x, ?_⟩
                rw [hc2.1, hc2.2]
                exact List.mem_cons_self _ _
              · left
                simpa [Board.press, hc2] using h'
            · exact Or.inr ⟨c, List.mem_cons_of_mem _ hc⟩
          · unfold coords
            rw [List.map_cons]
            refine List.nodup_cons.mpr ⟨?_, n2⟩
            intro hmem
            obtain ⟨t, ht, he⟩ := List.mem_map.mp hmem
            obtain ⟨_, hp', _⟩ := p2 t ht
            have he' : (t.1, t.2.1) = (x, y) := he
            obtain ⟨hx, hy⟩ := Prod.mk.inj he'
            rw [hx, hy] at hp'
            rw [press_pressed_self b x y] at hp'
            cases hp'
        · simp only [if_neg h3]
          refine ⟨?_, ?_, ?_, ?_⟩
          · intro t ht
            rw [List.mem_singleton] at ht
            subst ht
            exact ⟨hin, hprs, hflg⟩
          · intro t ht
            rw [List.mem_singleton] at ht
            subst ht
            exact Or.inr ⟨rfl, by simpa using h2, press_pressed_self b x y⟩
          · intro i j hp
            by_cases hc2 : j = y ∧ i = x
            · refine Or.inr ⟨(b.press x y).neighboring_mine_count y x, ?_⟩
              rw [hc2.1, hc2.2]
              exact List.mem_singleton.mpr rfl
            · left
              simpa [Board.press, hc2] using hp
          · exact List.nodup_singleton _


theorem coherent_congr {b b' : Board} (hs : SameStatic b b') (h : coherent b) :
    coherent b' := by
  intro c hc
  rw [hs.1, hs.2.1] at hc
  have hbase := h c hc
  rw [hs.2.2.2.1, hs.2.2.2.2]
  have hfilter : (neighborList c.1 c.2).filter (fun p => decide (b'.inB p.1 p.2)) =
      (neighborList c.1 c.2).filter (fun p => decide (b.inB p.1 p.2)) := by
    apply List.filter_congr
    intro p _
    simp only [decide_eq_decide]
    exact inB_congr hs p.1 p.2
  rw [hfilter]
  exact hbase

theorem coherent_zero_safe {b : Board} (hc : coherent b) {x y : Int}
    (hin : b.inB x y) (h0 : b.neighboring_mine_count y x = 0) :
    ∀ p ∈ neighborList x y, b.inB p.1 p.2 → b.is_mine p.2 p.1 = false := by
  intro p hp hpin
  have hcell := hc (x, y) ((mem_cellsRowMajor _ _ _).mpr hin)
  rw [h0] at hcell
  have hcnt : (((neighborList x y).filter (fun p => decide (b.inB p.1 p.2))).countP
      (fun p => b.is_mine p.2 p.1)) = 0 := by exact_mod_cast hcell.symm
  rw [List.countP_eq_zero] at hcnt
  have hmem : p ∈ (neighborList x y).filter (fun p => decide (b.inB p.1 p.2)) :=
    List.mem_filter.mpr ⟨hp, by simpa using hpin⟩
  have := hcnt p hmem
  simpa using this

theorem runList_safe {step : Board → Int → Int → Board × List Triple}
    (hstatic : ∀ b x y, SameStatic b (step b x y).1)
    (hstep : ∀ b x y, b.inB x y → coherent b → b._bombed = false →
      b.is_mine y x = false → (step b x y).1._bombed = false) :
    ∀ ps b, coherent b → b._bombed = false →
      (∀ p ∈ ps, b.inB p.1 p.2 → b.is_mine p.2 p.1 = false) →
      (runList step b ps).1._bombed = false := by
  intro ps
  induction ps with
  | nil => intro b _ hb _; exact hb
  | cons p ps ih =>
    intro b hc hb hsafe
    by_cases hin : b.inB p.1 p.2
    · simp only [runList, if_pos hin]
      have hb1 := hstep b p.1 p.2 hin hc hb (hsafe p (List.mem_cons_self _ _) hin)
      have hs1 := hstatic b p.1 p.2
      apply ih _ (coherent_congr hs1 hc) hb1
      intro q hq hqin
      rw [congrFun (congrFun hs1.2.2.2.1 q.2) q.1]
      exact hsafe q (List.mem_cons_of_mem _ hq) ((inB_congr hs1 q.1 q.2).mp hqin)
    · simp only [runList, if_neg hin]
      exact ih b hc hb (fun q hq => hsafe q (List.mem_cons_of_mem _ hq))

theorem clickAux_safe :
    ∀ f b x y, b.inB x y → coherent b → b._bombed = false → b.is_mine y x = false →
      (clickAux f b x y).1._bombed = false := by
  intro f
  induction f with
  | zero => intro b x y _ _ hb _; exact hb
  | succ f ih =>
    intro b x y hin hc hb hm
    simp only [clickAux]
    by_cases h1 : b._bombed || b.pressed y x || b.flagged y x
    · simp only [if_pos h1]; exact hb
    · simp only [if_neg h1]
      rw [if_neg (by simp [hm])]
      by_cases h3 : (b.press x y).neighboring_mine_count y x = 0
      · simp only [if_pos h3]
        have hs1 := press_static b x y
        apply runList_safe (clickAux_static f) ih _ _ (coherent_congr hs1 hc) hb
        intro p hp hpin
        exact coherent_zero_safe (coherent_congr hs1 hc) ((inB_congr hs1 x y).mpr hin) h3
          p hp hpin
      · simp only [if_neg h3]
        exact hb

theorem clickAux_presses :
    ∀ f b x y, 0 < f → b._bombed = false → b.is_mine y x = false →
      (clickAux f b x y).1.pressed y x = true ∨ (clickAux f b x y).1.flagged y x = true := by
  intro f b x y hf hb hm
  match f, hf with
  | f + 1, _ =>
    simp only [clickAux]
    by_cases h1 : b._bombed || b.pressed y x || b.flagged y x
    · simp only [if_pos h1]
      rw [hb] at h1
      simp only [Bool.false_or, Bool.or_eq_true] at h1
      rcases h1 with h | h
      · exact Or.inl h
      · exact Or.inr h
    · simp only [if_neg h1]
      rw [if_neg (by simp [hm])]
      by_cases h3 : (b.press x y).neighboring_mine_count y x = 0
      · simp only [if_pos h3]
        exact Or.inl ((runList_mono (clickAux_mono f) _ _).1 x y (press_pressed_self b x y))
      · simp only [if_neg h3]
        exact Or.inl (press_pressed_self b x y)

theorem nbrsDone_mono {b1 b2 : Board} {t : Triple} (h : NbrsDone b1 t)
    (hm : Mono b1 b2) (hs : SameStatic b1 b2) : NbrsDone b2 t := by
  intro p hp hpin
  rcases h p hp ((inB_congr hs p.1 p.2).mp hpin) with h' | h'
  · exact Or.inl (hm.1 p.1 p.2 h')
  · right
    rw [congrFun (congrFun hs.2.2.1 p.2) p.1]
    exact h'

theorem runList_boundary {step : Board → Int → Int → Board × List Triple} (n : Nat)
    (hstatic : ∀ b x y, SameStatic b (step b x y).1)
    (hmono : ∀ b x y, Mono b (step b x y).1)
    (hsafe : ∀ b x y, b.inB x y → coherent b → b._bombed = false →
      b.is_mine y x = false → (step b x y).1._bombed = false)
    (hbd : ∀ b x y, b.inB x y → coherent b → b._bombed = false →
      b.is_mine y x = false → unpressedCount b ≤ n →
      ∀ t ∈ (step b x y).2, t.2.2 = 0 → NbrsDone (step b x y).1 t)
    (hpress : ∀ b x y, b._bombed = false → b.is_mine y x = false →
      unpressedCount b ≤ n →
      (step b x y).1.pressed y x = true ∨ (step b x y).1.flagged y x = true) :
    ∀ ps b, coherent b → b._bombed = false →
      (∀ p ∈ ps, b.inB p.1 p.2 → b.is_mine p.2 p.1 = false) →
      unpressedCount b ≤ n →
      (∀ t ∈ (runList step b ps).2, t.2.2 = 0 → NbrsDone (runList step b ps).1 t) ∧
      (∀ p ∈ ps, b.inB p.1 p.2 →
        (runList step b ps).1.pressed p.2 p.1 = true ∨
        (runList step b ps).1.flagged p.2 p.1 = true) := by
  intro ps
  induction ps with
  | nil =>
    intro b _ _ _ _
    exact ⟨fun t ht => absurd ht (List.not_mem_nil _), fun p hp => absurd hp (List.not_mem_nil _)⟩
  | cons p ps ih =>
    intro b hc hb hlist hle
    by_cases hin : b.inB p.1 p.2
    · simp only [runList, if_pos hin]
      have hm := hlist p (List.mem_cons_self _ _) hin
      have hs1 := hstatic b p.1 p.2
      have hm1 := hmono b p.1 p.2
      have hb1 := hsafe b p.1 p.2 hin hc hb hm
      have hc1 := coherent_congr hs1 hc
      have hle1 : unpressedCount (step b p.1 p.2).1 ≤ n :=
        le_trans (unpressed_le_of_mono hm1 hs1) hle
      have hlist1 : ∀ q ∈ ps, (step b p.1 p.2).1.inB q.1 q.2 →
          (step b p.1 p.2).1.is_mine q.2 q.1 = false := by
        intro q hq hqin
        rw [congrFun (congrFun hs1.2.2.2.1 q.2) q.1]
        exact hlist q (List.mem_cons_of_mem _ hq) ((inB_congr hs1 q.1 q.2).mp hqin)
      obtain ⟨ihA, ihB⟩ := ih (step b p.1 p.2).1 hc1 hb1 hlist1 hle1
      have hmN := runList_mono hmono ps (step b p.1 p.2).1
      have hsN := runList_static hstatic ps (step b p.1 p.2).1
      constructor
      · intro t ht h0
        rcases List.mem_append.mp ht with h | h
        · exact nbrsDone_mono (hbd b p.1 p.2 hin hc hb hm hle t h h0) hmN hsN
        · exact ihA t h h0
      · intro q hq hqin
        rcases List.mem_cons.mp hq with rfl | hq'
        · rcases hpress b q.1 q.2 hb hm hle with h | h
          · exact Or.inl (hmN.1 q.1 q.2 h)
          · right
            rw [congrFun (congrFun hsN.2.2.1 q.2) q.1]
            exact h
        · exact ihB q hq' ((inB_congr hs1 q.1 q.2).mpr hqin)
    · simp only [runList, if_neg hin]
      have := ih b hc hb (fun q hq => hlist q (List.mem_cons_of_mem _ hq)) hle
      refine ⟨this.1, ?_⟩
      intro q hq hqin
      rcases List.mem_cons.mp hq with rfl | hq'
      · exact absurd hqin hin
      · exact this.2 q hq' hqin

theorem clickAux_boundary :
    ∀ f b x y, b.inB x y → coherent b → b._bombed = false → b.is_mine y x = false →
      unpressedCount b < f →
      ∀ t ∈ (clickAux f b x y).2, t.2.2 = 0 → NbrsDone (clickAux f b x y).1 t := by
  intro f
  induction f with
  | zero => intro b x y _ _ _ _ hf; omega
  | succ f ih =>
    intro b x y hin hc hb hm hf
    simp only [clickAux]
    by_cases h1 : b._bombed || b.pressed y x || b.flagged y x
    · simp only [if_pos h1]
      intro t ht
      exact absurd ht (List.not_mem_nil _)
    · simp only [if_neg h1]
      rw [if_neg (by simp [hm])]
      have hprs : b.pressed y x = false := by
        simp only [Bool.or_eq_true, not_or, Bool.not_eq_true] at h1
        exact h1.1.2
      have hup : unpressedCount (b.press x y) + 1 = unpressedCount b :=
        unpressedCount_press b x y hin hprs
      by_cases h3 : (b.press x y).neighboring_mine_count y x = 0
      · simp only [if_pos h3]
        have hs1 := press_static b x y
        have hc1 := coherent_congr hs1 hc
        have hnbrs : ∀ p ∈ neighborList x y, (b.press x y).inB p.1 p.2 →
            (b.press x y).is_mine p.2 p.1 = false :=
          coherent_zero_safe hc1 ((inB_congr hs1 x y).mpr hin) h3
        have hres := runList_boundary (unpressedCount (b.press x y))
          (clickAux_static f) (clickAux_mono f) (clickAux_safe f)
          (fun b' x' y' hin' hc' hb' hm' hle' =>
            ih b' x' y' hin' hc' hb' hm' (by omega))
          (fun b' x' y' hb' hm' hle' =>
            clickAux_presses f b' x' y' (by omega) hb' hm')
          (neighborList x y) (b.press x y) hc1 hb hnbrs (le_refl _)
        intro t ht h0
        rcases List.mem_cons.mp ht with rfl | ht'
        · intro p hp hpin
          exact hres.2 p hp
            ((inB_congr (runList_static (clickAux_static f) (neighborList x y) (b.press x y))
              p.1 p.2).mp hpin)
        · exact hres.1 t ht' h0
      · simp only [if_neg h3]
        intro t ht h0
        rcases List.mem_cons.mp ht with rfl | ht'
        · exact absurd h0 h3
        · exact absurd ht' (List.not_mem_nil _)

theorem chainOk_append (r1 : List Triple) :
    ∀ r2 acc, chainOk acc (r1 ++ r2) = (chainOk acc r1 && chainOk (acc ++ r1) r2) := by
  induction r1 with
  | nil => intro r2 acc; simp [chainOk]
  | cons t ts ih =>
    intro r2 acc
    show ((acc.any fun e => e.2.2 == 0 && isAdj (e.1, e.2.1) (t.1, t.2.1)) &&
        chainOk (acc ++ [t]) (ts ++ r2)) = _
    rw [ih r2 (acc ++ [t])]
    show _ = (((acc.any fun e => e.2.2 == 0 && isAdj (e.1, e.2.1) (t.1, t.2.1)) &&
        chainOk (acc ++ [t]) ts) && chainOk (acc ++ t :: ts) r2)
    rw [List.append_cons acc t ts, Bool.and_assoc]

theorem chainOk_weaken {acc acc' : List Triple} (hsub : ∀ e ∈ acc, e ∈ acc') :
    ∀ r, chainOk acc r = true → chainOk acc' r = true := by
  intro r
  induction r generalizing acc acc' with
  | nil => intro _; rfl
  | cons t ts ih =>
    intro h
    simp only [chainOk, Bool.and_eq_true] at h ⊢
    obtain ⟨h1, h2⟩ := h
    constructor
    · obtain ⟨e, he, hp⟩ := List.any_eq_true.mp h1
      exact List.any_eq_true.mpr ⟨e, hsub e he, hp⟩
    · refine ih ?_ h2
      intro e he
      rcases List.mem_append.mp he with h | h
      · exact List.mem_append_left _ (hsub e h)
      · exact List.mem_append_right _ h

theorem runList_chain {step : Board → Int → Int → Board × List Triple}
    (hstep : ∀ b x y acc,
      (∃ e ∈ acc, e.2.2 = 0 ∧ isAdj (e.1, e.2.1) (x, y) = true) →
      chainOk acc (step b x y).2 = true) :
    ∀ ps b acc,
      (∀ p ∈ ps, ∃ e ∈ acc, e.2.2 = 0 ∧ isAdj (e.1, e.2.1) (p.1, p.2) = true) →
      chainOk acc (runList step b ps).2 = true := by
  intro ps
  induction ps with
  | nil => intro b acc _; rfl
  | cons p ps ih =>
    intro b acc hacc
    by_cases hin : b.inB p.1 p.2
    · simp only [runList, if_pos hin]
      rw [chainOk_append, Bool.and_eq_true]
      constructor
      · exact hstep b p.1 p.2 acc (hacc p (List.mem_cons_self _ _))
      · apply ih
        intro q hq
        obtain ⟨e, he, hp⟩ := hacc q (List.mem_cons_of_mem _ hq)
        exact ⟨e, List.mem_append_left _ he, hp⟩
    · simp only [runList, if_neg hin]
      exact ih b acc (fun q hq => hacc q (List.mem_cons_of_mem _ hq))

theorem clickAux_chain :
    ∀ f b x y acc,
      (∃ e ∈ acc, e.2.2 = 0 ∧ isAdj (e.1, e.2.1) (x, y) = true) →
      chainOk acc (clickAux f b x y).2 = true := by
  intro f
  induction f with
  | zero => intro b x y acc _; rfl
  | succ f ih =>
    intro b x y acc hacc
    obtain ⟨e, he, h0, hadj⟩ := hacc
    have hany : acc.any (fun e => e.2.2 == 0 && isAdj (e.1, e.2.1) (x, y)) = true :=
      List.any_eq_true.mpr ⟨e, he, by simp [h0, hadj]⟩
    simp only [clickAux]
    by_cases h1 : b._bombed || b.pressed y x || b.flagged y x
    · simp only [if_pos h1]; rfl
    · simp only [if_neg h1]
      by_cases h2 : b.is_mine y x
      · simp only [if_pos h2]
        simp [chainOk, hany]
      · simp only [if_neg h2]
        by_cases h3 : (b.press x y).neighboring_mine_count y x = 0
        · simp only [if_pos h3]
          simp only [chainOk, Bool.and_eq_true]
          refine ⟨hany, ?_⟩
          apply runList_chain ih
          intro p hp
          refine ⟨(x, y, (b.press x y).neighboring_mine_count y x),
            List.mem_append_right _ (List.mem_singleton.mpr rfl), h3, ?_⟩
          simp only [isAdj, decide_eq_true_eq]
          simpa using hp
        · simp only [if_neg h3]
          simp [chainOk, hany]

theorem countP_add_countP_not {α : Type} (l : List α) (p : α → Bool) :
    l.countP p + l.countP (fun a => !p a) = l.length := by
  induction l with
  | nil => rfl
  | cons h t ih =>
    rw [List.countP_cons, List.countP_cons]
    cases hp : p h <;> simp [hp] <;> omega

theorem safeUnpressedCount_press (b : Board) (x y : Int) (hin : b.inB x y)
    (hp : b.pressed y x = false) (hm : b.is_mine y x = false) :
    safeUnpressedCount (b.press x y) + 1 = safeUnpressedCount b := by
  unfold safeUnpressedCount Board.press
  apply countP_update_at _ (nodup_cellsRowMajor _ _) (x, y)
  · rw [mem_cellsRowMajor]
    exact hin
  · simp [hp, hm]
  · simp
  · intro c _ hc
    have : ¬(c.2 = y ∧ c.1 = x) := by
      rintro ⟨h1, h2⟩
      exact hc (Prod.ext h2 h1)
    simp [this]

theorem inv_press (b : Board) (x y : Int) (hin : b.inB x y) (hinv : Board.inv b)
    (hp : b.pressed y x = false) (hf : b.flagged y x = false)
    (hm : b.is_mine y x = false) : Board.inv (b.press x y) := by
  obtain ⟨h1, h2, h3⟩ := hinv
  refine ⟨?_, ?_, ?_⟩
  · intro c hc
    rintro ⟨hcp, hcf⟩
    by_cases he : c.2 = y ∧ c.1 = x
    · have : (b.press x y).flagged c.2 c.1 = b.flagged y x := by
        show b.flagged c.2 c.1 = b.flagged y x
        rw [he.1, he.2]
      rw [this, hf] at hcf
      cases hcf
    · have hpe : (b.press x y).pressed c.2 c.1 = b.pressed c.2 c.1 := by
        show (if c.2 = y ∧ c.1 = x then true else b.pressed c.2 c.1) = _
        rw [if_neg he]
      rw [hpe] at hcp
      exact h1 c hc ⟨hcp, hcf⟩
  · intro c hc hcm
    by_cases he : c.2 = y ∧ c.1 = x
    · rw [he.1, he.2] at hcm
      have hcm' : b.is_mine y x = true := hcm
      rw [hcm'] at hm
      cases hm
    · show (if c.2 = y ∧ c.1 = x then true else b.pressed c.2 c.1) = false
      rw [if_neg he]
      exact h2 c hc hcm
  · show b.remaining - 1 = (safeUnpressedCount (b.press x y) : Int)
    have := safeUnpressedCount_press b x y hin hp hm
    omega

theorem runList_inv {step : Board → Int → Int → Board × List Triple}
    (hstep : ∀ b x y, b.inB x y → Board.inv b → Board.inv (step b x y).1) :
    ∀ ps b, Board.inv b → Board.inv (runList step b ps).1 := by
  intro ps
  induction ps with
  | nil => intro b h; exact h
  | cons p ps ih =>
    intro b h
    by_cases hin : b.inB p.1 p.2
    · simp only [runList, if_pos hin]
      exact ih _ (hstep b p.1 p.2 hin h)
    · simp only [runList, if_neg hin]
      exact ih b h

theorem clickAux_inv :
    ∀ f b x y, b.inB x y → Board.inv b → Board.inv (clickAux f b x y).1 := by
  intro f
  induction f with
  | zero => intro b x y _ h; exact h
  | succ f ih =>
    intro b x y hin hinv
    simp only [clickAux]
    by_cases h1 : b._bombed || b.pressed y x || b.flagged y x
    · simp only [if_pos h1]; exact hinv
    · simp only [if_neg h1]
      simp only [Bool.or_eq_true, not_or, Bool.not_eq_true] at h1
      by_cases h2 : b.is_mine y x
      · simp only [if_pos h2]
        exact hinv
      · simp only [if_neg h2]
        have hpinv := inv_press b x y hin hinv h1.1.2 h1.2 (by simpa using h2)
        by_cases h3 : (b.press x y).neighboring_mine_count y x = 0
        · simp only [if_pos h3]
          exact runList_inv ih _ _ hpinv
        · simp only [if_neg h3]
          exact hpinv

theorem flag_inv (b : Board) (x y : Int) (hinv : Board.inv b) :
    Board.inv (b.flag x y) := by
  by_cases hg : b._bombed || b.pressed y x
  · unfold Board.flag
    rw [if_pos hg]
    exact hinv
  · have hbf : b.flag x y =
        { b with
          flagged := fun y' x' => if y' = y ∧ x' = x then !b.flagged y x else b.flagged y' x'
          flags_remaining := b.flags_remaining + (if !(!b.flagged y x) then 1 else -1) } := by
      unfold Board.flag
      rw [if_neg hg]
    rw [hbf]
    simp only [Bool.or_eq_true, not_or, Bool.not_eq_true] at hg
    obtain ⟨h1, h2, h3⟩ := hinv
    refine ⟨?_, h2, h3⟩
    intro c hc
    rintro ⟨hcp, hcf⟩
    have hc' : c ∈ cellsRowMajor b.windowWidth b.windowHeight := hc
    have hcp' : b.pressed c.2 c.1 = true := hcp
    have hcf' : (if c.2 = y ∧ c.1 = x then !b.flagged y x else b.flagged c.2 c.1) = true := hcf
    by_cases he : c.2 = y ∧ c.1 = x
    · have hpe : b.pressed c.2 c.1 = false := by rw [he.1, he.2]; exact hg.2
      rw [hpe] at hcp'
      cases hcp'
    · rw [if_neg he] at hcf'
      exact h1 c hc' ⟨hcp', hcf'⟩

theorem flag_pres (b : Board) (x y : Int) :
    (b.flag x y).windowWidth = b.windowWidth ∧
    (b.flag x y).windowHeight = b.windowHeight ∧
    (b.flag x y).is_mine = b.is_mine ∧
    (b.flag x y).neighboring_mine_count = b.neighboring_mine_count ∧
    (b.flag x y).pressed = b.pressed ∧
    (b.flag x y).remaining = b.remaining := by
  unfold Board.flag
  split <;> exact ⟨rfl, rfl, rfl, rfl, rfl, rfl⟩

theorem applyOp_pres (b : Board) (op : Op) :
    (applyOp b op).windowWidth = b.windowWidth ∧
    (applyOp b op).windowHeight = b.windowHeight ∧
    (applyOp b op).is_mine = b.is_mine ∧
    (applyOp b op).neighboring_mine_count = b.neighboring_mine_count := by
  cases op with
  | click x y =>
    have hs := clickAux_static (b.windowWidth * b.windowHeight + 1) b x y
    exact ⟨hs.1, hs.2.1, hs.2.2.2.1, hs.2.2.2.2⟩
  | flag x y =>
    have := flag_pres b x y
    exact ⟨this.1, this.2.1, this.2.2.1, this.2.2.2.1⟩

theorem applyOp_inv (b : Board) (op : Op) (hin : Op.inB b op) (hinv : Board.inv b) :
    Board.inv (applyOp b op) := by
  cases op with
  | click x y => exact clickAux_inv _ b x y hin hinv
  | flag x y => exact flag_inv b x y hinv

theorem applyOps_pres_inv :
    ∀ (ops : List Op) (b : Board), Board.inv b → (∀ op ∈ ops, Op.inB b op) →
      Board.inv (applyOps b ops) ∧
      (applyOps b ops).windowWidth = b.windowWidth ∧
      (applyOps b ops).windowHeight = b.windowHeight ∧
      (applyOps b ops).is_mine = b.is_mine ∧
      (applyOps b ops).neighboring_mine_count = b.neighboring_mine_count := by
  intro ops
  induction ops with
  | nil => intro b h _; exact ⟨h, rfl, rfl, rfl, rfl⟩
  | cons op ops ih =>
    intro b hinv hops
    have hin := hops op (List.mem_cons_self _ _)
    have h1 := applyOp_inv b op hin hinv
    have hp := applyOp_pres b op
    have hops1 : ∀ o ∈ ops, Op.inB (applyOp b op) o := by
      intro o ho
      have := hops o (List.mem_cons_of_mem _ ho)
      cases o with
      | click x y => unfold Op.inB Board.inB at *; rw [hp.1, hp.2.1]; exact this
      | flag x y => unfold Op.inB Board.inB at *; rw [hp.1, hp.2.1]; exact this
    have := ih (applyOp b op) h1 hops1
    exact ⟨this.1, this.2.1.trans hp.1, this.2.2.1.trans hp.2.1,
      this.2.2.2.1.trans hp.2.2.1, this.2.2.2.2.trans hp.2.2.2⟩

theorem setMines_eq_true (l : List (Int × Int)) :
    ∀ (g : Int → Int → Bool) (y x : Int),
      setMines g l y x = true ↔ (x, y) ∈ l ∨ g y x = true := by
  induction l with
  | nil =>
    intro g y x
    simp [setMines]
  | cons c cs ih =>
    intro g y x
    show setMines _ cs y x = true ↔ _
    rw [ih, List.mem_cons]
    by_cases he : y = c.2 ∧ x = c.1
    · have hxy : (x, y) = c := Prod.ext he.2 he.1
      simp [if_pos he, hxy]
    · have hxy : (x, y) ≠ c := by
        intro h
        exact he ⟨congrArg Prod.snd h, congrArg Prod.fst h⟩
      rw [if_neg he]
      simp [hxy]

theorem countP_mem_eq_length {α : Type} (l m : List α) (p : α → Bool)
    (hp : ∀ a, p a = true ↔ a ∈ m)
    (hl : l.Nodup) (hm : m.Nodup) (hsub : ∀ a ∈ m, a ∈ l) :
    l.countP p = m.length := by
  rw [List.countP_eq_length_filter]
  have hperm : (l.filter p).Perm m := by
    apply (List.perm_ext_iff_of_nodup (List.Nodup.filter _ hl) hm).mpr
    intro a
    rw [List.mem_filter, hp]
    constructor
    · rintro ⟨_, h⟩; exact h
    · intro h; exact ⟨hsub a h, h⟩
  exact hperm.length_eq

theorem create_mine_count (b : Board) (m : List (Int × Int)) (hnd : m.Nodup)
    (hmem : ∀ c ∈ m, b.inB c.1 c.2) :
    (cellsRowMajor b.windowWidth b.windowHeight).countP
      (fun c => (b.create m).is_mine c.2 c.1) = m.length := by
  apply countP_mem_eq_length _ _ _ ?_ (nodup_cellsRowMajor _ _) hnd
  · intro c hc
    rw [mem_cellsRowMajor]
    exact hmem c hc
  · intro c
    show setMines (fun _ _ => false) m c.2 c.1 = true ↔ c ∈ m
    rw [setMines_eq_true]
    simp

theorem create_inv (b : Board) (m : List (Int × Int)) (hnd : m.Nodup)
    (hmem : ∀ c ∈ m, b.inB c.1 c.2) (hlen : m.length = b.mines) :
    Board.inv (b.create m) := by
  refine ⟨?_, ?_, ?_⟩
  · intro c _ h
    have h1 : (false : Bool) = true := h.1
    cases h1
  · intro c _ _
    rfl
  · show (b.windowWidth : Int) * (b.windowHeight : Int) - (b.mines : Int) =
      (safeUnpressedCount (b.create m) : Int)
    have hB : safeUnpressedCount (b.create m) =
        (cellsRowMajor b.windowWidth b.windowHeight).countP
          (fun c => !(b.create m).is_mine c.2 c.1) := by
      unfold safeUnpressedCount
      apply List.countP_congr
      intro c _
      show (!(b.create m).is_mine c.2 c.1 && !(false : Bool)) = true ↔
        (!(b.create m).is_mine c.2 c.1) = true
      simp
    have hC := countP_add_countP_not (cellsRowMajor b.windowWidth b.windowHeight)
      (fun c => (b.create m).is_mine c.2 c.1)
    have hA := create_mine_count b m hnd hmem
    have hL := length_cellsRowMajor b.windowWidth b.windowHeight
    rw [hB]
    have hmul : b.windowHeight * b.windowWidth = b.windowWidth * b.windowHeight :=
      Nat.mul_comm _ _
    have hcast : ((b.windowWidth * b.windowHeight : Nat) : Int) =
        (b.windowWidth : Int) * (b.windowHeight : Int) := by push_cast; ring
    omega

theorem hasWon_iff_of_inv {b : Board} (hinv : Board.inv b) :
    b.has_won = true ↔
      ∀ c ∈ cellsRowMajor b.windowWidth b.windowHeight,
        b.is_mine c.2 c.1 = false → b.pressed c.2 c.1 = true := by
  unfold Board.has_won
  rw [beq_iff_eq, hinv.2.2, Int.natCast_eq_zero]
  unfold safeUnpressedCount
  rw [List.countP_eq_zero]
  constructor
  · intro h c hc hm
    have h2 := h c hc
    simp only [Bool.and_eq_true, Bool.not_eq_true', not_and] at h2
    have h3 := h2 hm
    cases hp : b.pressed c.2 c.1 with
    | true => rfl
    | false => exact absurd hp h3
  · intro h c hc
    simp only [Bool.and_eq_true, Bool.not_eq_true', not_and]
    intro hm
    rw [h c hc hm]
    simp

theorem flag_hasWon (b : Board) (x y : Int) : (b.flag x y).has_won = b.has_won := by
  unfold Board.has_won
  rw [(flag_pres b x y).2.2.2.2.2]

theorem nodup_offsets8 : offsets8.Nodup := by decide

theorem nodup_neighborList (x y : Int) : (neighborList x y).Nodup := by
  refine List.Nodup.map ?_ nodup_offsets8
  intro a b h
  have h1 : x + a.1 = x + b.1 := congrArg Prod.fst h
  have h2 : y + a.2 = y + b.2 := congrArg Prod.snd h
  apply Prod.ext <;> omega

theorem mem_neighborList_symm {x y : Int} {p : Int × Int}
    (h : p ∈ neighborList x y) : (x, y) ∈ neighborList p.1 p.2 := by
  obtain ⟨d, hd, he⟩ := List.mem_map.mp h
  apply List.mem_map.mpr
  refine ⟨(-d.1, -d.2), ?_, ?_⟩
  · fin_cases hd <;> decide
  · have h1 : x + d.1 = p.1 := congrArg Prod.fst he
    have h2 : y + d.2 = p.2 := congrArg Prod.snd he
    have : p.1 + -d.1 = x := by omega
    have : p.2 + -d.2 = y := by omega
    apply Prod.ext <;> simpa

theorem mem_cellsColMajor (W H : Nat) (c : Int × Int) :
    c ∈ cellsColMajor W H ↔ 0 ≤ c.1 ∧ c.1 < (W : Int) ∧ 0 ≤ c.2 ∧ c.2 < (H : Int) := by
  constructor
  · intro h
    obtain ⟨x, hx, hc⟩ := List.mem_flatMap.mp h
    obtain ⟨y, hy, he⟩ := List.mem_map.mp hc
    rw [List.mem_range] at hx hy
    subst he
    refine ⟨Int.natCast_nonneg x, ?_, Int.natCast_nonneg y, ?_⟩
    · show (x : Int) < (W : Int)
      exact_mod_cast hx
    · show (y : Int) < (H : Int)
      exact_mod_cast hy
  · rintro ⟨h1, h2, h3, h4⟩
    apply List.mem_flatMap.mpr
    refine ⟨c.1.toNat, List.mem_range.mpr (by omega), ?_⟩
    apply List.mem_map.mpr
    refine ⟨c.2.toNat, List.mem_range.mpr (by omega), ?_⟩
    rw [Int.toNat_of_nonneg h1, Int.toNat_of_nonneg h3]

theorem nodup_cellsColMajor (W H : Nat) : (cellsColMajor W H).Nodup := by
  apply List.nodup_flatMap.2
  constructor
  · intro x _
    refine List.Nodup.map ?_ (List.nodup_range H)
    intro a b h
    have := congrArg Prod.snd h
    simpa using this
  · refine (List.pairwise_lt_range W).imp ?_
    intro x1 x2 hlt c hc1 hc2
    obtain ⟨y1, _, he1⟩ := List.mem_map.mp hc1
    obtain ⟨y2, _, he2⟩ := List.mem_map.mp hc2
    have : (x1 : Int) = (x2 : Int) := by
      have := (congrArg Prod.fst he1).trans (congrArg Prod.fst he2).symm
      simpa using this
    omega

theorem countP_singleton_mem {α : Type} [DecidableEq α] (l : List α) (hnd : l.Nodup) (a : α) :
    l.countP (fun p => decide (p = a)) = if a ∈ l then 1 else 0 := by
  induction l with
  | nil => simp
  | cons b t ih =>
    rw [List.nodup_cons] at hnd
    rw [List.countP_cons]
    by_cases he : b = a
    · subst he
      have h0 : t.countP (fun p => decide (p = b)) = 0 := by
        rw [List.countP_eq_zero]
        intro p hp
        simp only [decide_eq_true_eq]
        intro hpa
        exact hnd.1 (hpa ▸ hp)
      rw [h0, if_pos (List.mem_cons_self _ _)]
      simp
    · rw [ih hnd.2]
      have hne : a ≠ b := fun h => he h.symm
      simp [he, hne]

theorem bumpNeighbors_point (W H : Nat) (g : Int → Int → Int) (x y j i : Int) :
    bumpNeighbors W H g x y j i = g j i +
      (((neighborList x y).filter
          (fun p => decide (0 ≤ p.1 ∧ p.1 < (W : Int) ∧ 0 ≤ p.2 ∧ p.2 < (H : Int)))).countP
        (fun p => decide (p = (i, j))) : Int) := by
  unfold bumpNeighbors
  generalize neighborList x y = ns
  induction ns generalizing g with
  | nil => simp
  | cons p ps ih =>
    by_cases hin : 0 ≤ p.1 ∧ p.1 < (W : Int) ∧ 0 ≤ p.2 ∧ p.2 < (H : Int)
    · rw [List.foldl_cons, if_pos hin, List.filter_cons_of_pos (by simpa using hin), ih,
        List.countP_cons]
      by_cases he : j = p.2 ∧ i = p.1
      · have hpe : p = (i, j) := Prod.ext he.2.symm he.1.symm
        rw [if_pos he, ← he.1, ← he.2]
        simp only [hpe, decide_eq_true_eq]
        push_cast
        simp
        ring
      · have hpe : p ≠ (i, j) := by
          intro h
          exact he ⟨(congrArg Prod.snd h).symm, (congrArg Prod.fst h).symm⟩
        rw [if_neg he]
        simp [hpe]
    · rw [List.foldl_cons, if_neg hin, List.filter_cons_of_neg (by simpa using hin), ih]

theorem computeCounts_fold (W H : Nat) (mine : Int → Int → Bool) :
    ∀ (l : List (Int × Int)) (g : Int → Int → Int) (j i : Int),
      (l.foldl (fun g c => if mine c.2 c.1 then bumpNeighbors W H g c.1 c.2 else g) g) j i =
      g j i + (l.countP (fun c => mine c.2 c.1 &&
        decide ((i, j) ∈ (neighborList c.1 c.2).filter
          (fun p => decide (0 ≤ p.1 ∧ p.1 < (W : Int) ∧ 0 ≤ p.2 ∧ p.2 < (H : Int))))) : Int) := by
  intro l
  induction l with
  | nil => intro g j i; simp
  | cons c cs ih =>
    intro g j i
    rw [List.foldl_cons, List.countP_cons]
    by_cases hm : mine c.2 c.1
    · rw [if_pos hm, ih, bumpNeighbors_point,
        countP_singleton_mem _ (List.Nodup.filter _ (nodup_neighborList c.1 c.2))]
      by_cases hmem : (i, j) ∈ (neighborList c.1 c.2).filter
          (fun p => decide (0 ≤ p.1 ∧ p.1 < (W : Int) ∧ 0 ≤ p.2 ∧ p.2 < (H : Int)))
      · rw [if_pos hmem]
        simp only [hm, hmem, Bool.true_and, decide_eq_true_eq, if_pos]
        push_cast
        ring
      · rw [if_neg hmem]
        simp only [hm, Bool.true_and]
        rw [if_neg (by simpa using hmem)]
        push_cast
        ring
    · rw [if_neg hm, ih]
      simp only [Bool.not_eq_true] at hm
      simp [hm]

theorem computeCounts_correct (W H : Nat) (mine : Int → Int → Bool) (x y : Int)
    (hin : 0 ≤ x ∧ x < (W : Int) ∧ 0 ≤ y ∧ y < (H : Int)) :
    computeCounts W H mine y x =
      ((((neighborList x y).filter
          (fun p => decide (0 ≤ p.1 ∧ p.1 < (W : Int) ∧ 0 ≤ p.2 ∧ p.2 < (H : Int)))).countP
        (fun p => mine p.2 p.1)) : Int) := by
  unfold computeCounts
  rw [computeCounts_fold]
  have hperm : ((cellsColMajor W H).filter (fun c => mine c.2 c.1 &&
      decide ((x, y) ∈ (neighborList c.1 c.2).filter
        (fun p => decide (0 ≤ p.1 ∧ p.1 < (W : Int) ∧ 0 ≤ p.2 ∧ p.2 < (H : Int)))))).Perm
      (((neighborList x y).filter
        (fun p => decide (0 ≤ p.1 ∧ p.1 < (W : Int) ∧ 0 ≤ p.2 ∧ p.2 < (H : Int)))).filter
        (fun p => mine p.2 p.1)) := by
    apply (List.perm_ext_iff_of_nodup
      (List.Nodup.filter _ (nodup_cellsColMajor W H))
      (List.Nodup.filter _ (List.Nodup.filter _ (nodup_neighborList x y)))).mpr
    intro a
    simp only [List.mem_filter, mem_cellsColMajor, Bool.and_eq_true, decide_eq_true_eq]
    constructor
    · rintro ⟨hain, hmine, hadj⟩
      have hsym := mem_neighborList_symm hadj.1
      exact ⟨⟨by simpa using hsym, hain⟩, hmine⟩
    · rintro ⟨⟨hadj, hain⟩, hmine⟩
      have hsym := mem_neighborList_symm hadj
      exact ⟨hain, hmine, hsym, hin⟩
  rw [List.countP_eq_length_filter, List.countP_eq_length_filter, hperm.length_eq]
  simp

theorem length_le_of_nodup_subset {α : Type} [DecidableEq α] {l l' : List α}
    (h1 : l.Nodup) (h2 : l ⊆ l') : l.length ≤ l'.length := by
  calc l.length = l.toFinset.card := (List.toFinset_card_of_nodup h1).symm
    _ ≤ l'.toFinset.card := Finset.card_le_card (fun a ha => by
        rw [List.mem_toFinset] at *
        exact h2 ha)
    _ ≤ l'.length := l'.toFinset_card_le

/-- C9: after `create()`, `neighboring_mine_count[y][x]` is exactly the
number of mined cells among the in-bounds 8-neighbors of `(x, y)`, for
every cell of the grid and every sampled mine placement. -/
theorem create_counts_correct (b : Board) (m : List (Int × Int)) (x y : Int)
    (hin : b.inB x y) :
    (b.create m).neighboring_mine_count y x =
      ((((neighborList x y).filter (fun p => decide (b.inB p.1 p.2))).countP
        (fun p => (b.create m).is_mine p.2 p.1)) : Int) := by
  have hfe : (neighborList x y).filter (fun p => decide (b.inB p.1 p.2)) =
      (neighborList x y).filter (fun p => decide (0 ≤ p.1 ∧ p.1 < (b.windowWidth : Int) ∧
        0 ≤ p.2 ∧ p.2 < (b.windowHeight : Int))) := by
    apply List.filter_congr
    intro p _
    rw [decide_eq_decide]
    exact Iff.rfl
  have h := computeCounts_correct b.windowWidth b.windowHeight
    (setMines (fun _ _ => false) m) x y hin
  rw [← hfe] at h
  exact h

theorem create_coherent (b : Board) (m : List (Int × Int)) : coherent (b.create m) := by
  intro c hc
  have hin : b.inB c.1 c.2 := by
    rw [mem_cellsRowMajor] at hc
    exact hc
  exact create_counts_correct b m c.1 c.2 hin

/-- C5: clicking an in-bounds, non-mined, unrevealed, unflagged cell with
zero adjacent mines on a count-coherent board (i) terminates — any fuel
above the number of unpressed cells computes the same result as
`Board.click`; (ii) reveals no cell twice; (iii) reveals only cells that
were in bounds, unpressed and unflagged, each with its own clue, all
pressed afterwards; (iv) reveals at most grid-size many cells; (v) stops
only at positive-clue cells, flagged cells, or the grid edge — every
in-bounds neighbor of a revealed zero-clue cell ends up pressed or was
flagged; and (vi) reveals a connected region: the first triple is
`(x, y, 0)` and every later triple is adjacent to an earlier zero-clue
triple. -/
theorem click_flood_fill (b : Board) (x y : Int)
    (hin : b.inB x y) (hcoh : coherent b) (hb : b._bombed = false)
    (hp : b.pressed y x = false) (hf : b.flagged y x = false)
    (hm : b.is_mine y x = false) (h0 : b.neighboring_mine_count y x = 0) :
    (∀ f, unpressedCount b < f → clickAux f b x y = b.click x y) ∧
    (coords (b.click x y).2).Nodup ∧
    (∀ t ∈ (b.click x y).2,
      b.inB t.1 t.2.1 ∧ b.pressed t.2.1 t.1 = false ∧ b.flagged t.2.1 t.1 = false ∧
      t.2.2 = b.neighboring_mine_count t.2.1 t.1 ∧
      (b.click x y).1.pressed t.2.1 t.1 = true) ∧
    (b.click x y).2.length ≤ b.windowWidth * b.windowHeight ∧
    (∀ t ∈ (b.click x y).2, t.2.2 = 0 →
      ∀ p ∈ neighborList t.1 t.2.1, b.inB p.1 p.2 →
        (b.click x y).1.pressed p.2 p.1 = true ∨ b.flagged p.2 p.1 = true) ∧
    (∃ rest, (b.click x y).2 = (x, y, 0) :: rest ∧ chainOk [(x, y, 0)] rest = true) := by
  have hfuel : unpressedCount b < b.windowWidth * b.windowHeight + 1 := by
    have h1 := unpressedCount_le b
    have h2 : b.windowHeight * b.windowWidth = b.windowWidth * b.windowHeight :=
      Nat.mul_comm _ _
    omega
  have hco : ClickOut b (b.click x y).1 (b.click x y).2 :=
    clickAux_clickOut (b.windowWidth * b.windowHeight + 1) b x y hin
  have hsafe : (b.click x y).1._bombed = false :=
    clickAux_safe (b.windowWidth * b.windowHeight + 1) b x y hin hcoh hb hm
  have hst : SameStatic b (b.click x y).1 :=
    clickAux_static (b.windowWidth * b.windowHeight + 1) b x y
  have hmem : ∀ t ∈ (b.click x y).2,
      b.inB t.1 t.2.1 ∧ b.pressed t.2.1 t.1 = false ∧ b.flagged t.2.1 t.1 = false ∧
      t.2.2 = b.neighboring_mine_count t.2.1 t.1 ∧
      (b.click x y).1.pressed t.2.1 t.1 = true := by
    intro t ht
    obtain ⟨h1, h2, h3⟩ := hco.1 t ht
    rcases hco.2.1 t ht with ⟨_, _, hbb⟩ | ⟨ha, _, hc⟩
    · rw [hsafe] at hbb
      cases hbb
    · exact ⟨h1, h2, h3, ha, hc⟩
  refine ⟨?_, hco.2.2.2, hmem, ?_, ?_, ?_⟩
  · intro f hf'
    exact click_eq_clickAux b x y f hin hf'
  · have hcl : (coords (b.click x y).2).length = (b.click x y).2.length :=
      List.length_map _ _
    rw [← hcl]
    have hsub : coords (b.click x y).2 ⊆
        cellsRowMajor b.windowWidth b.windowHeight := by
      intro a ha
      obtain ⟨t, ht, he⟩ := List.mem_map.mp ha
      rw [← he, mem_cellsRowMajor]
      exact (hmem t ht).1
    calc (coords (b.click x y).2).length
        ≤ (cellsRowMajor b.windowWidth b.windowHeight).length :=
          length_le_of_nodup_subset hco.2.2.2 hsub
      _ = b.windowHeight * b.windowWidth := length_cellsRowMajor _ _
      _ = b.windowWidth * b.windowHeight := Nat.mul_comm _ _
  · intro t ht h0t p hpn hpin
    have hnd := clickAux_boundary (b.windowWidth * b.windowHeight + 1) b x y hin hcoh
      hb hm hfuel t ht h0t
    rcases hnd p hpn ((inB_congr hst p.1 p.2).mpr hpin) with h | h
    · exact Or.inl h
    · right
      rw [← congrFun (congrFun hst.2.2.1 p.2) p.1]
      exact h
  · have hg1 : ¬(b._bombed || b.pressed y x || b.flagged y x) = true := by
      simp [hb, hp, hf]
    have hg2 : ¬b.is_mine y x = true := by simp [hm]
    have hstep : b.click x y =
        ((runList (clickAux (b.windowWidth * b.windowHeight)) (b.press x y)
            (neighborList x y)).1,
          (x, y, (b.press x y).neighboring_mine_count y x) ::
            (runList (clickAux (b.windowWidth * b.windowHeight)) (b.press x y)
              (neighborList x y)).2) := by
      show clickAux (b.windowWidth * b.windowHeight + 1) b x y = _
      simp only [clickAux]
      rw [if_neg hg1, if_neg hg2, if_pos (show (b.press x y).neighboring_mine_count y x = 0
        from h0)]
    refine ⟨(runList (clickAux (b.windowWidth * b.windowHeight)) (b.press x y)
        (neighborList x y)).2, ?_, ?_⟩
    · rw [hstep]
      have : (b.press x y).neighboring_mine_count y x = 0 := h0
      rw [this]
    · apply runList_chain (clickAux_chain (b.windowWidth * b.windowHeight))
      intro p hpn
      refine ⟨(x, y, 0), List.mem_singleton.mpr rfl, rfl, ?_⟩
      simp only [isAdj, decide_eq_true_eq]
      simpa using hpn

/-- C7: clicking an unrevealed, unflagged, mined cell on a live board
marks the game lost and returns exactly the sentinel triple
`(x, y, -1)`; no cell becomes pressed, and `remaining` and the flags are
unchanged. -/
theorem click_detonation (b : Board) (x y : Int)
    (hb : b._bombed = false) (hp : b.pressed y x = false) (hf : b.flagged y x = false)
    (hm : b.is_mine y x = true) :
    (b.click x y).2 = [(x, y, -1)] ∧
    (b.click x y).1._bombed = true ∧
    (b.click x y).1.pressed = b.pressed ∧
    (b.click x y).1.remaining = b.remaining ∧
    (b.click x y).1.flagged = b.flagged := by
  have hstep : b.click x y = ({ b with _bombed := true }, [(x, y, -1)]) := by
    show clickAux (b.windowWidth * b.windowHeight + 1) b x y = _
    simp only [clickAux]
    rw [if_neg (by simp [hb, hp, hf]), if_pos hm]
  rw [hstep]
  exact ⟨rfl, rfl, rfl, rfl, rfl⟩

/-- C8: if the game is already lost, or the target cell is already
revealed or flagged, `click` returns the empty list and the board state
is unchanged (the very board value is returned). -/
theorem click_noop (b : Board) (x y : Int)
    (h : b._bombed = true ∨ b.pressed y x = true ∨ b.flagged y x = true) :
    b.click x y = (b, []) := by
  show clickAux (b.windowWidth * b.windowHeight + 1) b x y = _
  simp only [clickAux]
  rw [if_pos (by rcases h with h | h | h <;> simp [h])]

theorem add_constraint_clicked_self (s : MinesweeperLPSolver) (b : Board) (i j mc : Int) :
    (s.add_constraint b i j mc).clicked = s.clicked ∨
    (s.add_constraint b i j mc).clicked = (i, j) :: s.clicked := by
  unfold MinesweeperLPSolver.add_constraint
  by_cases h : (i, j) ∈ s.clicked
  · left; simp [if_pos h]
  · right; simp [if_neg h]

theorem mem_add_constraint_clicked (s : MinesweeperLPSolver) (b : Board) (i j mc : Int) :
    (i, j) ∈ (s.add_constraint b i j mc).clicked := by
  unfold MinesweeperLPSolver.add_constraint
  by_cases h : (i, j) ∈ s.clicked
  · simpa [if_pos h] using h
  · simp [if_neg h]

theorem add_constraint_clicked_mono (s : MinesweeperLPSolver) (b : Board) (i j mc : Int)
    {c : Int × Int} (h : c ∈ s.clicked) :
    c ∈ (s.add_constraint b i j mc).clicked := by
  unfold MinesweeperLPSolver.add_constraint
  by_cases hm : (i, j) ∈ s.clicked
  · simpa [if_pos hm] using h
  · simp only [if_neg hm]
    exact List.mem_cons_of_mem _ h

/-- C1 amended: `add_constraint` never duplicates the `clicked` entry of
a cell already clicked, but it appends its two constraints (cell-fixing
and neighbor-sum) unconditionally, so a second call for the same cell
still grows the constraint list by exactly two. -/
theorem add_constraint_growth (s : MinesweeperLPSolver) (b : Board) (i j mc : Int)
    (h : (i, j) ∈ s.clicked) :
    (s.add_constraint b i j mc).clicked = s.clicked ∧
    (s.add_constraint b i j mc).constraints.length = s.constraints.length + 2 := by
  unfold MinesweeperLPSolver.add_constraint
  constructor
  · simp [if_pos h]
  · simp

theorem foldl_min_mem {α : Type} (key : α → ℚ) :
    ∀ (xs : List α) (a : α),
      xs.foldl (fun m c => if key c < key m then c else m) a ∈ a :: xs := by
  intro xs
  induction xs with
  | nil => intro a; exact List.mem_singleton.mpr rfl
  | cons c cs ih =>
    intro a
    rw [List.foldl_cons]
    by_cases hc : key c < key a
    · rw [if_pos hc]
      rcases List.mem_cons.mp (ih c) with h | h
      · rw [h]
        exact List.mem_cons_of_mem _ (List.mem_cons_self _ _)
      · exact List.mem_cons_of_mem _ (List.mem_cons_of_mem _ h)
    · rw [if_neg hc]
      rcases List.mem_cons.mp (ih a) with h | h
      · rw [h]
        exact List.mem_cons_self _ _
      · exact List.mem_cons_of_mem _ (List.mem_cons_of_mem _ h)

theorem foldl_min_le_seed {α : Type} (key : α → ℚ) :
    ∀ (xs : List α) (a : α),
      key (xs.foldl (fun m c => if key c < key m then c else m) a) ≤ key a := by
  intro xs
  induction xs with
  | nil => intro a; exact le_refl _
  | cons c cs ih =>
    intro a
    rw [List.foldl_cons]
    refine le_trans (ih _) ?_
    by_cases hc : key c < key a
    · rw [if_pos hc]
      exact le_of_lt hc
    · rw [if_neg hc]

theorem foldl_min_first {α : Type} (key : α → ℚ) :
    ∀ (xs : List α) (a : α),
      ∃ l1 l2, a :: xs = l1 ++ (xs.foldl (fun m c => if key c < key m then c else m) a) :: l2 ∧
        (∀ c ∈ l1, key (xs.foldl (fun m c => if key c < key m then c else m) a) < key c) ∧
        (∀ c ∈ l2, key (xs.foldl (fun m c => if key c < key m then c else m) a) ≤ key c) := by
  intro xs
  induction xs with
  | nil =>
    intro a
    exact ⟨[], [], rfl, fun c hc => absurd hc (List.not_mem_nil _),
      fun c hc => absurd hc (List.not_mem_nil _)⟩
  | cons c cs ih =>
    intro a
    rw [List.foldl_cons]
    by_cases hc : key c < key a
    · rw [if_pos hc]
      obtain ⟨l1, l2, hdec, hfr, htl⟩ := ih c
      refine ⟨a :: l1, l2, ?_, ?_, htl⟩
      · rw [List.cons_append, ← hdec]
      · intro e he
        rcases List.mem_cons.mp he with rfl | he'
        · exact lt_of_le_of_lt (foldl_min_le_seed key cs c) hc
        · exact hfr e he'
    · rw [if_neg hc]
      push_neg at hc
      obtain ⟨l1, l2, hdec, hfr, htl⟩ := ih a
      cases l1 with
      | nil =>
        rw [List.nil_append] at hdec
        injection hdec with hm ht
        refine ⟨[], c :: cs, ?_, fun e he => absurd he (List.not_mem_nil _), ?_⟩
        · rw [List.nil_append, ← hm]
        · intro e he
          rcases List.mem_cons.mp he with rfl | he'
          · rw [← hm]
            exact hc
          · rw [ht] at he'
            exact htl e he'
      | cons a' l1' =>
        rw [List.cons_append] at hdec
        injection hdec with hm ht
        refine ⟨a :: c :: l1', l2, ?_, ?_, htl⟩
        · rw [List.cons_append, List.cons_append, ← ht]
        · intro e he
          rcases List.mem_cons.mp he with rfl | he'
          · exact hfr e (hm ▸ List.mem_cons_self _ _)
          rcases List.mem_cons.mp he' with rfl | he''
          · exact lt_of_lt_of_le (hfr a (hm ▸ List.mem_cons_self _ _)) hc
          · exact hfr e (List.mem_cons_of_mem _ he'')

theorem pyMin_mem {α : Type} (key : α → ℚ) {l : List α} {m : α}
    (h : pyMin key l = some m) : m ∈ l := by
  cases l with
  | nil => cases h
  | cons x xs =>
    have hm : xs.foldl (fun m c => if key c < key m then c else m) x = m :=
      Option.some.inj h
    rw [← hm]
    exact foldl_min_mem key xs x

theorem get_next_zero_eq (s : MinesweeperLPSolver) (b : Board) (sol : Int → Int → ℚ) :
    (s.get_next b sol).2.1 =
      if ((unidentified b).filter (fun c => decide (sol c.2 c.1 ≤ EPSILON))).isEmpty &&
          ((unidentified b).filter (fun c =>
            !decide (sol c.2 c.1 ≤ EPSILON) && decide (1 - EPSILON ≤ sol c.2 c.1))).isEmpty &&
          !(unidentified b).isEmpty then
        match pyMin (fun c => sol c.2 c.1) (unidentified b) with
        | some best =>
          ((unidentified b).filter (fun c => decide (sol c.2 c.1 ≤ EPSILON))) ++ [best]
        | none => (unidentified b).filter (fun c => decide (sol c.2 c.1 ≤ EPSILON))
      else (unidentified b).filter (fun c => decide (sol c.2 c.1 ≤ EPSILON)) := rfl

theorem get_next_one_eq (s : MinesweeperLPSolver) (b : Board) (sol : Int → Int → ℚ) :
    (s.get_next b sol).2.2 = (unidentified b).filter (fun c =>
      !decide (sol c.2 c.1 ≤ EPSILON) && decide (1 - EPSILON ≤ sol c.2 c.1)) := rfl

theorem get_next_subset (s : MinesweeperLPSolver) (b : Board) (sol : Int → Int → ℚ) :
    (∀ c ∈ (s.get_next b sol).2.1, c ∈ unidentified b) ∧
    (∀ c ∈ (s.get_next b sol).2.2, c ∈ unidentified b) := by
  constructor
  · intro c hc
    rw [get_next_zero_eq] at hc
    split at hc
    · split at hc
      · rcases List.mem_append.mp hc with h | h
        · exact List.mem_of_mem_filter h
        · rw [List.mem_singleton] at h
          subst h
          exact pyMin_mem _ (by assumption)
      · exact List.mem_of_mem_filter hc
    · exact List.mem_of_mem_filter hc
  · intro c hc
    rw [get_next_one_eq] at hc
    exact List.mem_of_mem_filter hc

theorem mem_unidentified {b : Board} {c : Int × Int} (h : c ∈ unidentified b) :
    b.pressed c.2 c.1 = false ∧ b.flagged c.2 c.1 = false := by
  have := (List.mem_filter.mp h).2
  simp only [Bool.and_eq_true, Bool.not_eq_true'] at this
  exact this

/-- C3: under the game-loop coupling between solver and board — every
cell in the solver's `clicked` set is pressed on the board, and every
cell in the solver's `flagged` set is flagged or pressed on the board —
`get_next` never returns, in either list, a cell already in `clicked`
or already in the solver's `flagged` set. -/
theorem get_next_avoids (s : MinesweeperLPSolver) (b : Board) (sol : Int → Int → ℚ)
    (hclick : ∀ c ∈ s.clicked, b.pressed c.2 c.1 = true)
    (hflagS : ∀ c ∈ s.flagged, b.flagged c.2 c.1 = true ∨ b.pressed c.2 c.1 = true) :
    (∀ c ∈ (s.get_next b sol).2.1, c ∉ s.clicked ∧ c ∉ s.flagged) ∧
    (∀ c ∈ (s.get_next b sol).2.2, c ∉ s.clicked ∧ c ∉ s.flagged) := by
  have hmain : ∀ c ∈ unidentified b, c ∉ s.clicked ∧ c ∉ s.flagged := by
    intro c hc
    obtain ⟨hp, hf⟩ := mem_unidentified hc
    constructor
    · intro hmem
      rw [hclick c hmem] at hp
      cases hp
    · intro hmem
      rcases hflagS c hmem with h | h
      · rw [h] at hf; cases hf
      · rw [h] at hp; cases hp
  exact ⟨fun c hc => hmain c ((get_next_subset s b sol).1 c hc),
    fun c hc => hmain c ((get_next_subset s b sol).2 c hc)⟩

theorem pyMin_first {α : Type} (key : α → ℚ) {l : List α} {m : α}
    (h : pyMin key l = some m) :
    ∃ l1 l2, l = l1 ++ m :: l2 ∧ (∀ c ∈ l1, key m < key c) ∧
      (∀ c ∈ l2, key m ≤ key c) := by
  cases l with
  | nil => cases h
  | cons x xs =>
    have hm : xs.foldl (fun m c => if key c < key m then c else m) x = m :=
      Option.some.inj h
    obtain ⟨l1, l2, hdec, hfr, htl⟩ := foldl_min_first key xs x
    rw [hm] at hdec hfr htl
    exact ⟨l1, l2, hdec, hfr, htl⟩

set_option maxHeartbeats 1600000 in
/-- C4: when the relaxation values of all unidentified cells lie
strictly between `EPSILON` and `1 - EPSILON` and unidentified cells
remain, `get_next` returns exactly one cell in `zero_pos` — a cell of
minimal relaxation value, the first such in row-major iteration order —
and an empty `one_pos`. -/
theorem get_next_guess (s : MinesweeperLPSolver) (b : Board) (sol : Int → Int → ℚ)
    (hne : unidentified b ≠ [])
    (hall : ∀ c ∈ unidentified b,
      EPSILON < sol c.2 c.1 ∧ sol c.2 c.1 < 1 - EPSILON) :
    ∃ best l1 l2,
      (s.get_next b sol).2.1 = [best] ∧
      (s.get_next b sol).2.2 = [] ∧
      unidentified b = l1 ++ best :: l2 ∧
      (∀ c ∈ unidentified b, sol best.2 best.1 ≤ sol c.2 c.1) ∧
      (∀ c ∈ l1, sol best.2 best.1 < sol c.2 c.1) ∧
      (∀ c ∈ l2, sol best.2 best.1 ≤ sol c.2 c.1) := by
  have hz : (unidentified b).filter (fun c => decide (sol c.2 c.1 ≤ EPSILON)) = [] := by
    rw [List.filter_eq_nil_iff]
    intro c hc
    simp only [decide_eq_true_eq]
    exact not_le.mpr (hall c hc).1
  have ho : (unidentified b).filter (fun c =>
      !decide (sol c.2 c.1 ≤ EPSILON) && decide (1 - EPSILON ≤ sol c.2 c.1)) = [] := by
    rw [List.filter_eq_nil_iff]
    intro c hc
    simp only [Bool.and_eq_true, Bool.not_eq_true, decide_eq_true_eq,
      decide_eq_false_iff_not, not_and]
    intro _
    exact not_le.mpr (hall c hc).2
  obtain ⟨u, us, hcons⟩ := List.exists_cons_of_ne_nil hne
  obtain ⟨best, hpy⟩ : ∃ m, pyMin (fun c => sol c.2 c.1) (unidentified b) = some m := by
    rw [hcons]
    exact ⟨_, rfl⟩
  have hemp : (unidentified b).isEmpty = false := by
    rw [hcons]
    rfl
  have h21 : (s.get_next b sol).2.1 = [best] := by
    rw [get_next_zero_eq, hz, ho, hemp, hpy]
    rfl
  have h22 : (s.get_next b sol).2.2 = [] := by
    rw [get_next_one_eq, ho]
  obtain ⟨l1, l2, hdec, hfr, htl⟩ :=
    pyMin_first (fun (c : Int × Int) => sol c.2 c.1) hpy
  refine ⟨best, l1, l2, h21, h22, hdec, ?_, hfr, htl⟩
  intro c hc
  rw [hdec] at hc
  rcases List.mem_append.mp hc with h | h
  · exact le_of_lt (hfr c h)
  rcases List.mem_cons.mp h with rfl | h'
  · exact le_refl _
  · exact htl c h'

theorem fold_addC_clicked_mono (b : Board) :
    ∀ (rs : List Triple) (sv : MinesweeperLPSolver) {c : Int × Int}, c ∈ sv.clicked →
      c ∈ (rs.foldl (fun sv t => sv.add_constraint b t.1 t.2.1 t.2.2) sv).clicked := by
  intro rs
  induction rs with
  | nil => intro sv c h; exact h
  | cons t ts ih =>
    intro sv c h
    rw [List.foldl_cons]
    exact ih _ (add_constraint_clicked_mono sv b t.1 t.2.1 t.2.2 h)

theorem fold_addC_clicked_mem (b : Board) :
    ∀ (rs : List Triple) (sv : MinesweeperLPSolver) (t : Triple), t ∈ rs →
      (t.1, t.2.1) ∈
        (rs.foldl (fun sv t => sv.add_constraint b t.1 t.2.1 t.2.2) sv).clicked := by
  intro rs
  induction rs with
  | nil => intro sv t h; cases h
  | cons t0 ts ih =>
    intro sv t h
    rw [List.foldl_cons]
    rcases List.mem_cons.mp h with rfl | h'
    · exact fold_addC_clicked_mono b ts _ (mem_add_constraint_clicked sv b t.1 t.2.1 t.2.2)
    · exact ih _ t h'

theorem loop_fold_spec :
    ∀ (cs : List (Int × Int)) (b : Board) (sv : MinesweeperLPSolver),
      (∀ c0 ∈ sv.clicked, c0 ∈
        (cs.foldl (fun (st : Board × MinesweeperLPSolver) c =>
          ((st.1.click c.1 c.2).1,
            (st.1.click c.1 c.2).2.foldl
              (fun sv t => sv.add_constraint (st.1.click c.1 c.2).1 t.1 t.2.1 t.2.2) st.2))
          (b, sv)).2.clicked) ∧
      (∀ t ∈ (loopClickResults b cs).2, (t.1, t.2.1) ∈
        (cs.foldl (fun (st : Board × MinesweeperLPSolver) c =>
          ((st.1.click c.1 c.2).1,
            (st.1.click c.1 c.2).2.foldl
              (fun sv t => sv.add_constraint (st.1.click c.1 c.2).1 t.1 t.2.1 t.2.2) st.2))
          (b, sv)).2.clicked) := by
  intro cs
  induction cs with
  | nil =>
    intro b sv
    exact ⟨fun c0 h => h, fun t ht => absurd ht (List.not_mem_nil _)⟩
  | cons c cs ih =>
    intro b sv
    constructor
    · intro c0 h
      rw [List.foldl_cons]
      exact (ih _ _).1 c0 (fold_addC_clicked_mono _ _ _ h)
    · intro t ht
      rw [List.foldl_cons]
      rcases List.mem_append.mp ht with h | h
      · exact (ih _ _).1 _ (fold_addC_clicked_mem _ _ _ t h)
      · exact (ih _ _).2 t h

/-- C2 amended: `Game.on_loop` forwards every reveal triple produced by
its `Board.click` calls into `add_constraint`, the detonation sentinel
`(x, y, -1)` included: each produced triple's cell ends up in the
solver's `clicked` set. -/
theorem on_loop_forwards_all (g : Game) (sol : Int → Int → ℚ)
    (hb : g.board._bombed = false) :
    ∀ t ∈ (loopClickResults g.board (g.solver.get_next g.board sol).2.1).2,
      (t.1, t.2.1) ∈ ((g.on_loop sol).solver).clicked := by
  intro t ht
  have hstep : (g.on_loop sol).solver =
      ((g.solver.get_next g.board sol).2.1.foldl
        (fun (st : Board × MinesweeperLPSolver) c =>
          ((st.1.click c.1 c.2).1,
            (st.1.click c.1 c.2).2.foldl
              (fun sv t => sv.add_constraint (st.1.click c.1 c.2).1 t.1 t.2.1 t.2.2) st.2))
        (g.board, (g.solver.get_next g.board sol).1)).2 := by
    unfold Game.on_loop
    rw [if_neg (by simp [hb])]
  rw [hstep]
  exact (loop_fold_spec _ _ _).2 t ht

/-- C6: for every board produced by `create` and every in-bounds
sequence of click and flag operations, `has_won` holds exactly when
every non-mined cell is pressed, and flagging any cell never changes
`has_won`. -/
theorem has_won_iff (b0 : Board) (m : List (Int × Int)) (ops : List Op)
    (hnd : m.Nodup) (hmem : ∀ c ∈ m, b0.inB c.1 c.2) (hlen : m.length = b0.mines)
    (hops : ∀ op ∈ ops, Op.inB (b0.create m) op) :
    ((applyOps (b0.create m) ops).has_won = true ↔
      ∀ c ∈ cellsRowMajor (applyOps (b0.create m) ops).windowWidth
          (applyOps (b0.create m) ops).windowHeight,
        (applyOps (b0.create m) ops).is_mine c.2 c.1 = false →
        (applyOps (b0.create m) ops).pressed c.2 c.1 = true) ∧
    (∀ x y : Int, ((applyOps (b0.create m) ops).flag x y).has_won =
      (applyOps (b0.create m) ops).has_won) := by
  have hinv := (applyOps_pres_inv ops (b0.create m) (create_inv b0 m hnd hmem hlen) hops).1
  exact ⟨hasWon_iff_of_inv hinv, fun x y => flag_hasWon _ x y⟩

/-- C10: every state reachable from `create` by in-bounds click and flag
operations satisfies the board invariant — no cell both pressed and
flagged, no mined cell pressed, `remaining` equal to the number of
non-mined unpressed cells — and its mine grid is the one fixed at
creation. -/
theorem board_state_invariant (b0 : Board) (m : List (Int × Int)) (ops : List Op)
    (hnd : m.Nodup) (hmem : ∀ c ∈ m, b0.inB c.1 c.2) (hlen : m.length = b0.mines)
    (hops : ∀ op ∈ ops, Op.inB (b0.create m) op) :
    Board.inv (applyOps (b0.create m) ops) ∧
    (applyOps (b0.create m) ops).is_mine = (b0.create m).is_mine := by
  have h := applyOps_pres_inv ops (b0.create m) (create_inv b0 m hnd hmem hlen) hops
  exact ⟨h.1, h.2.2.2.1⟩

/-- C1 counterexample: after `add_constraint` has been called once for
cell `(0, 0)` — so `(0, 0)` is in `clicked` — a second identical call
still changes the length of the constraints list, contradicting the
claimed idempotence. -/
theorem add_constraint_duplicates :
    (0, 0) ∈ (mkSolver.add_constraint cbB 0 0 0).clicked ∧
    ¬(((mkSolver.add_constraint cbB 0 0 0).add_constraint cbB 0 0 0).constraints.length =
      (mkSolver.add_constraint cbB 0 0 0).constraints.length) := by
  decide

theorem add_constraint_growth_witness :
    ((0, 0) ∈ (mkSolver.add_constraint cbB 0 0 0).clicked) ∧
    (((mkSolver.add_constraint cbB 0 0 0).add_constraint cbB 0 0 0).clicked =
        (mkSolver.add_constraint cbB 0 0 0).clicked ∧
      ((mkSolver.add_constraint cbB 0 0 0).add_constraint cbB 0 0 0).constraints.length =
        (mkSolver.add_constraint cbB 0 0 0).constraints.length + 2) :=
  ⟨by decide, add_constraint_growth (mkSolver.add_constraint cbB 0 0 0) cbB 0 0 0 (by decide)⟩

unseal Rat.sub Rat.mul Rat.inv in
/-- C2 counterexample: on the concrete game `gameB` the solver clicks
the mined cell `(0, 0)`; `on_loop` forwards the resulting sentinel
triple `(0, 0, -1)` into `add_constraint`, so the mined cell enters the
solver's `clicked` set and a neighbor-sum-equals-(-1) constraint is
appended — the sentinel is not excluded. -/
theorem on_loop_forwards_sentinel :
    gameB.board.is_mine 0 0 = true ∧
    (0, 0) ∉ mkSolver.clicked ∧
    (0, 0) ∈ ((gameB.on_loop solZero).solver).clicked ∧
    Constr.sumEq [(1, 0)] (-1) ∈ ((gameB.on_loop solZero).solver).constraints := by
  decide

unseal Rat.sub Rat.mul Rat.inv in
theorem on_loop_forwards_all_witness :
    gameB.board._bombed = false ∧
    (∀ t ∈ (loopClickResults gameB.board
        (gameB.solver.get_next gameB.board solZero).2.1).2,
      (t.1, t.2.1) ∈ ((gameB.on_loop solZero).solver).clicked) :=
  ⟨by decide, on_loop_forwards_all gameB solZero (by decide)⟩

unseal Rat.sub Rat.mul Rat.inv in
theorem get_next_avoids_witness :
    ((∀ c ∈ mkSolver.clicked, cbC.pressed c.2 c.1 = true) ∧
      (∀ c ∈ mkSolver.flagged, cbC.flagged c.2 c.1 = true ∨ cbC.pressed c.2 c.1 = true)) ∧
    ((∀ c ∈ (mkSolver.get_next cbC solZero).2.1, c ∉ mkSolver.clicked ∧ c ∉ mkSolver.flagged) ∧
      (∀ c ∈ (mkSolver.get_next cbC solZero).2.2, c ∉ mkSolver.clicked ∧ c ∉ mkSolver.flagged)) :=
  ⟨⟨by decide, by decide⟩, get_next_avoids mkSolver cbC solZero (by decide) (by decide)⟩

unseal Rat.sub Rat.mul Rat.inv in
theorem get_next_guess_witness :
    (unidentified cbC ≠ [] ∧
      (∀ c ∈ unidentified cbC, EPSILON < solMid c.2 c.1 ∧ solMid c.2 c.1 < 1 - EPSILON)) ∧
    (∃ best l1 l2,
      (mkSolver.get_next cbC solMid).2.1 = [best] ∧
      (mkSolver.get_next cbC solMid).2.2 = [] ∧
      unidentified cbC = l1 ++ best :: l2 ∧
      (∀ c ∈ unidentified cbC, solMid best.2 best.1 ≤ solMid c.2 c.1) ∧
      (∀ c ∈ l1, solMid best.2 best.1 < solMid c.2 c.1) ∧
      (∀ c ∈ l2, solMid best.2 best.1 ≤ solMid c.2 c.1)) :=
  ⟨⟨by decide, by decide⟩, get_next_guess mkSolver cbC solMid (by decide) (by decide)⟩

theorem click_flood_fill_witness :
    (cbD.inB 0 0 ∧ coherent cbD ∧ cbD._bombed = false ∧ cbD.pressed 0 0 = false ∧
      cbD.flagged 0 0 = false ∧ cbD.is_mine 0 0 = false ∧
      cbD.neighboring_mine_count 0 0 = 0) ∧
    ((∀ f, unpressedCount cbD < f → clickAux f cbD 0 0 = cbD.click 0 0) ∧
      (coords (cbD.click 0 0).2).Nodup ∧
      (∀ t ∈ (cbD.click 0 0).2,
        cbD.inB t.1 t.2.1 ∧ cbD.pressed t.2.1 t.1 = false ∧ cbD.flagged t.2.1 t.1 = false ∧
        t.2.2 = cbD.neighboring_mine_count t.2.1 t.1 ∧
        (cbD.click 0 0).1.pressed t.2.1 t.1 = true) ∧
      (cbD.click 0 0).2.length ≤ cbD.windowWidth * cbD.windowHeight ∧
      (∀ t ∈ (cbD.click 0 0).2, t.2.2 = 0 →
        ∀ p ∈ neighborList t.1 t.2.1, cbD.inB p.1 p.2 →
          (cbD.click 0 0).1.pressed p.2 p.1 = true ∨ cbD.flagged p.2 p.1 = true) ∧
      (∃ rest, (cbD.click 0 0).2 = (0, 0, 0) :: rest ∧ chainOk [(0, 0, 0)] rest = true)) :=
  ⟨⟨by decide, by decide, by decide, by decide, by decide, by decide, by decide⟩,
    click_flood_fill cbD 0 0 (by decide) (by decide) (by decide) (by decide) (by decide)
      (by decide) (by decide)⟩

theorem has_won_iff_witness :
    (([((0 : Int), (0 : Int))] : List (Int × Int)).Nodup ∧
      (∀ c ∈ ([((0 : Int), (0 : Int))] : List (Int × Int)), cbB.inB c.1 c.2) ∧
      ([((0 : Int), (0 : Int))] : List (Int × Int)).length = cbB.mines ∧
      (∀ op ∈ [Op.click 1 0], Op.inB (cbB.create [((0 : Int), (0 : Int))]) op)) ∧
    (((applyOps (cbB.create [((0 : Int), (0 : Int))]) [Op.click 1 0]).has_won = true ↔
      ∀ c ∈ cellsRowMajor
          (applyOps (cbB.create [((0 : Int), (0 : Int))]) [Op.click 1 0]).windowWidth
          (applyOps (cbB.create [((0 : Int), (0 : Int))]) [Op.click 1 0]).windowHeight,
        (applyOps (cbB.create [((0 : Int), (0 : Int))]) [Op.click 1 0]).is_mine c.2 c.1 = false →
        (applyOps (cbB.create [((0 : Int), (0 : Int))]) [Op.click 1 0]).pressed c.2 c.1 = true) ∧
    (∀ x y : Int,
      ((applyOps (cbB.create [((0 : Int), (0 : Int))]) [Op.click 1 0]).flag x y).has_won =
      (applyOps (cbB.create [((0 : Int), (0 : Int))]) [Op.click 1 0]).has_won)) :=
  ⟨⟨by decide, by decide, by decide, by decide⟩,
    has_won_iff cbB [((0 : Int), (0 : Int))] [Op.click 1 0]
      (by decide) (by decide) (by decide) (by decide)⟩

theorem click_detonation_witness :
    (cbB._bombed = false ∧ cbB.pressed 0 0 = false ∧ cbB.flagged 0 0 = false ∧
      cbB.is_mine 0 0 = true) ∧
    ((cbB.click 0 0).2 = [(0, 0, -1)] ∧
      (cbB.click 0 0).1._bombed = true ∧
      (cbB.click 0 0).1.pressed = cbB.pressed ∧
      (cbB.click 0 0).1.remaining = cbB.remaining ∧
      (cbB.click 0 0).1.flagged = cbB.flagged) :=
  ⟨⟨by decide, by decide, by decide, by decide⟩,
    click_detonation cbB 0 0 (by decide) (by decide) (by decide) (by decide)⟩

theorem click_noop_witness :
    (cbE._bombed = true ∨ cbE.pressed 0 0 = true ∨ cbE.flagged 0 0 = true) ∧
    cbE.click 0 0 = (cbE, []) :=
  ⟨by decide, click_noop cbE 0 0 (by decide)⟩

theorem create_counts_witness :
    cbB.inB 1 0 ∧
    ((cbB.create [((0 : Int), (0 : Int))]).neighboring_mine_count 0 1 =
      ((((neighborList 1 0).filter (fun p => decide (cbB.inB p.1 p.2))).countP
        (fun p => (cbB.create [((0 : Int), (0 : Int))]).is_mine p.2 p.1)) : Int)) :=
  ⟨by decide, create_counts_correct cbB [((0 : Int), (0 : Int))] 1 0 (by decide)⟩

theorem board_state_invariant_witness :
    (([((0 : Int), (0 : Int))] : List (Int × Int)).Nodup ∧
      (∀ c ∈ ([((0 : Int), (0 : Int))] : List (Int × Int)), cbB.inB c.1 c.2) ∧
      ([((0 : Int), (0 : Int))] : List (Int × Int)).length = cbB.mines ∧
      (∀ op ∈ [Op.flag 1 0], Op.inB (cbB.create [((0 : Int), (0 : Int))]) op)) ∧
    (Board.inv (applyOps (cbB.create [((0 : Int), (0 : Int))]) [Op.flag 1 0]) ∧
      (applyOps (cbB.create [((0 : Int), (0 : Int))]) [Op.flag 1 0]).is_mine =
        (cbB.create [((0 : Int), (0 : Int))]).is_mine) :=
  ⟨⟨by decide, by decide, by decide, by decide⟩,
    board_state_invariant cbB [((0 : Int), (0 : Int))] [Op.flag 1 0]
      (by decide) (by decide) (by decide) (by decide)⟩
